import Mathlib

/-!
Verification development for the Jackpot aggregatable lottery scheme
(KZG-based simulation-extractable vector commitment plus the lottery
reduction built on top of it).

Modelling conventions, mirroring the Rust source:

* The pairing groups G1, G2, GT of the curve are cyclic of prime order r,
  the order of the scalar field F.  Choosing generators identifies each of
  them with (F, +) as an F-module, and the pairing with multiplication in
  F.  This identification is a group isomorphism, so every equality test
  performed by the code holds in the curve groups iff it holds in the
  model.  Group elements are therefore represented by elements of `F`
  (their discrete logarithms) and `pairing a b = a * b`.

* The scalar field, big-integer inversion (`batch_inversion`) and field
  division are part of the external arithmetic layer (arkworks).  They are
  modelled by a commutative ring `F` together with an explicit inversion
  function `finv : F → F`; theorems assume the library contract
  `t ≠ 0 → t * finv t = 1` (and `finv 1 = 1` follows).  arkworks'
  `batch_inversion` leaves zero entries unchanged, and the model applies
  `finv` entrywise.

* SHA-256, `from_random_bytes` and the canonical serializers are external;
  they are carried as components of a `HashEnv` record.  Bytes are
  modelled as natural numbers below 256.

* Rust `u32`/`u64` arithmetic is modelled on `Nat` with explicit wrapping
  (`% 2^32`, masked shifts), matching release-profile two's-complement
  semantics.

* Fallible operations (out-of-bounds indexing, `unwrap` on MSM length
  mismatch, the explicit `panic!` in `commit`, and the unbounded
  rejection-sampling loops, which are given fuel) are modelled in
  `Option`; `none` means the Rust code panics or diverges.
-/

namespace Jackpot

/-- One byte of `n`: the `j`-th base-256 digit (little-endian position). -/
def byteOf (n j : Nat) : Nat := n / 256 ^ j % 256

/-- Rust `u64::to_le_bytes`: eight bytes, least significant first. -/
def le64 (n : Nat) : List Nat := (List.range 8).map (byteOf n)

/-- A 64-bit counter rendered big-endian (as the specification describes it). -/
def be64 (n : Nat) : List Nat := ((List.range 8).map (byteOf n)).reverse

/-- Rust `u32::to_be_bytes`: four bytes, most significant first. -/
def be32 (n : Nat) : List Nat := ((List.range 4).map (byteOf n)).reverse

/-- ASCII bytes of a domain-separator string. -/
def strBytes (s : String) : List Nat := s.data.map Char.toNat

/-- Rust `u32::leading_zeros`.  For `k < 2^32` this counts how many of the 32 bits
above the highest set bit are clear (32 for `k = 0`). -/
def u32_leading_zeros (k : Nat) : Nat :=
  32 - (List.range 32).countP (fun b => 2 ^ b ≤ k)

/-- Wrapping `u32` subtraction (release-profile semantics). -/
def u32_sub (a b : Nat) : Nat := (a + 2 ^ 32 - b) % 2 ^ 32

/-- Rust `u32` shift-left with the shift amount masked to 5 bits
(release-profile semantics of `1 << log_k`). -/
def u32_shl (a b : Nat) : Nat := (a <<< (b % 32)) % 2 ^ 32

section Model

variable (F : Type)

/-- A KZG opening: the masking evaluation `hat_y` and the (discrete log of
the) commitment `v` to the witness polynomial. -/
structure Opening where
  hat_y : F
  v : F
  deriving DecidableEq

/-- A commitment: the KZG group element, the claimed evaluation `y0` at the
hash-derived point `z0`, and the embedded self-opening `tau0`. -/
structure Commitment where
  com_kzg : F
  y0 : F
  tau0 : Opening F
  deriving DecidableEq

/-- Secret commitment state: evaluations of the message polynomial
(`0..N`) and of the masking polynomial (`N..2N`), plus optional
FK-precomputed openings. -/
structure State where
  evals : List F
  precomputed_v : Option (List F)

/-- The external evaluation domain (arkworks `EvaluationDomain`): its size,
its elements, the evaluation of its vanishing polynomial, and
`evaluate_all_lagrange_coefficients`. -/
structure Dom where
  size : Nat
  elem : Nat → F
  zEval : F → F
  lagAt : F → List F

/-- The commitment key, as assembled by `setup` (kzg.rs).  The FK tables
`y`/`hat_y` of the Rust struct are omitted: their producer
(`precompute_y`) is absent from the source snapshot and no operation
modelled here reads them. -/
structure CommitmentKey where
  message_length : Nat
  domain : Dom F
  u : List F
  hat_u : List F
  lagranges : List F
  g2 : F
  r : F
  d : List F

/-- External hashing and serialization environment: SHA-256,
`Field::from_random_bytes`, and the uncompressed canonical serializers for
group elements, field elements and commitments. -/
structure HashEnv where
  sha256 : List Nat → List Nat
  fromRandomBytes : List Nat → Option F
  serG1 : F → List Nat
  serF : F → List Nat
  serCom : Commitment F → List Nat

end Model

variable {F : Type} [CommRing F] [DecidableEq F]

/-- The pairing in the discrete-log model: `e(a·P1, b·P2) = (a*b)·gT`. -/
def pairing (a b : F) : F := a * b

/-- Multi-scalar multiplication.  arkworks' `msm` errors (and every call
site unwraps, i.e. panics) when the two slices have different lengths. -/
def msm (bases scalars : List F) : Option F :=
  if bases.length = scalars.length then
    some (((bases.zip scalars).map (fun p => p.1 * p.2)).sum)
  else none

/-- kzg_utils.rs `plain_kzg_com`: one MSM against the Lagrange basis. -/
def plain_kzg_com (ck : CommitmentKey F) (evals : List F) : Option F :=
  msm ck.lagranges evals

/-- The byte stream hashed by one iteration of `get_z0`'s rejection loop:
domain separator, uncompressed commitment serialization, then the 64-bit
counter in little-endian (`i.to_le_bytes()` in the source). -/
def get_z0_input (comSer : List Nat) (cnt : Nat) : List Nat :=
  strBytes "KZG-SIM-EXT//" ++ comSer ++ le64 cnt

/-- The byte stream `get_z0` hashes as the specification describes it,
with the counter big-endian. -/
def get_z0_input_be (comSer : List Nat) (cnt : Nat) : List Nat :=
  strBytes "KZG-SIM-EXT//" ++ comSer ++ be64 cnt

/-- The rejection-sampling loop of `get_z0`; the Rust counter `i` starts
at 0 and is incremented before each hash, and the loop runs until
`from_random_bytes` succeeds (fuel bounds the modelled iterations). -/
def get_z0_from (env : HashEnv F) (comSer : List Nat) : Nat → Nat → Option F
  | 0, _ => none
  | fuel + 1, cnt =>
    match env.fromRandomBytes (env.sha256 (get_z0_input comSer (cnt + 1))) with
    | some z => some z
    | none => get_z0_from env comSer fuel (cnt + 1)

/-- kzg_utils.rs `get_z0`: hash the uncompressed commitment into a field
element by rejection sampling. -/
def get_z0 (env : HashEnv F) (fuel : Nat) (com_kzg : F) : Option F :=
  get_z0_from env (env.serG1 com_kzg) fuel 0

/-- The per-party serialized payload of `get_chi`: for each `j`, the
uncompressed serialization of `mis[j]` followed by that of `coms[j]`.
(The Rust loop indexes `coms[j]` for `j < mis.len()` and panics when
`coms` is shorter; all call sites in this development have equal
lengths, which `zip` reproduces exactly.) -/
def get_chi_pairs (env : HashEnv F) (mis : List F) (coms : List (Commitment F)) : List Nat :=
  ((mis.zip coms).map (fun p => env.serF p.1 ++ env.serCom p.2)).flatten

/-- The byte stream hashed by one iteration of `get_chi`: domain
separator, the 64-bit counter little-endian (`cnt.to_le_bytes()`), the
lottery index `i` as a big-endian `u32`, then the serialized pairs. -/
def get_chi_input (env : HashEnv F) (i : Nat) (mis : List F) (coms : List (Commitment F))
    (cnt : Nat) : List Nat :=
  strBytes "KZG-AGG//" ++ le64 cnt ++ be32 i ++ get_chi_pairs env mis coms

/-- The rejection-sampling loop of `get_chi` (counter semantics as in
`get_z0_from`). -/
def get_chi_from (env : HashEnv F) (i : Nat) (mis : List F) (coms : List (Commitment F)) :
    Nat → Nat → Option F
  | 0, _ => none
  | fuel + 1, cnt =>
    match env.fromRandomBytes (env.sha256 (get_chi_input env i mis coms (cnt + 1))) with
    | some z => some z
    | none => get_chi_from env i mis coms fuel (cnt + 1)

/-- kzg_utils.rs `get_chi`: the aggregation challenge. -/
def get_chi (env : HashEnv F) (fuel : Nat) (i : Nat) (mis : List F)
    (coms : List (Commitment F)) : Option F :=
  get_chi_from env i mis coms fuel 0

/-- kzg_utils.rs `plain_kzg_verify`: the pairing check
`e(com - g1*y - h*hat_y, g2) == e(v, r - g2*z)` with `g1 = u[0]`,
`h = hat_u[0]`. -/
def plain_kzg_verify (ck : CommitmentKey F) (com_kzg z y : F) (tau : Opening F) : Bool :=
  let lhs_left := com_kzg - ck.u.getD 0 0 * y - ck.hat_u.getD 0 0 * tau.hat_y
  let lhs := pairing lhs_left ck.g2
  let rhs_right := ck.r - ck.g2 * z
  let rhs := pairing tau.v rhs_right
  decide (lhs = rhs)

/-- kzg_utils.rs `plain_kzg_verify_inside`: same check against the
precomputed `d[i] = g2*(alpha - z_i)`; indexing `d[i]` panics when
`i` is out of range. -/
def plain_kzg_verify_inside (ck : CommitmentKey F) (i : Nat) (com_kzg y : F)
    (tau : Opening F) : Option Bool :=
  (ck.d.get? i).map fun di =>
    let lhs_left := com_kzg - ck.u.getD 0 0 * y - ck.hat_u.getD 0 0 * tau.hat_y
    let lhs := pairing lhs_left ck.g2
    let rhs := pairing tau.v di
    decide (lhs = rhs)

/-- kzg_utils.rs `find_in_domain`: test the vanishing polynomial, then
linearly scan for the index (the last match wins, as in the source). -/
def find_in_domain (dom : Dom F) (z : F) : Option Nat :=
  if dom.zEval z = 0 then
    (List.range dom.size).foldl (fun y i => if z = dom.elem i then some i else y) none
  else none

/-- kzg_utils.rs `inv_diffs`: all `1/(domain.element(i) - z)` by batch
inversion (modelled entrywise by `finv`). -/
def inv_diffs (finv : F → F) (dom : Dom F) (z : F) : List F :=
  ((List.range dom.size).map (fun i => dom.elem i - z)).map finv

/-- kzg_utils.rs `witness_evals_outside`: evaluation form of
`(f - f(z)) / (X - z)`, given `inv_diffs`.  The Rust function appends to
a caller-supplied buffer; the model returns the appended segment. -/
def witness_evals_outside (dom : Dom F) (evals : List F) (fz : F) (invd : List F) : List F :=
  (List.range dom.size).map fun i => (evals.getD i 0 - fz) * invd.getD i 0

/-- kzg_utils.rs `evaluate_outside`: barycentric evaluation
`f(z) = Z(z)/N * sum_i evals[i] * (-x_i * inv_diffs[i])`. -/
def evaluate_outside (finv : F → F) (dom : Dom F) (evals : List F) (z : F)
    (invd : List F) : F :=
  let factor := dom.zEval z * finv ((dom.size : F))
  let s := ((List.range dom.size).map fun i =>
    evals.getD i 0 * (-(dom.elem i) * invd.getD i 0)).sum
  factor * s

/-- kzg_utils.rs `witness_evals_inside`: evaluation form of
`(f - f(x_i)) / (X - x_i)`.  Position `i` of the denominators is set to a
sentinel 1 before batch inversion, and the singular evaluation is patched
afterwards with the Feist-Khovratovich sum; the exponent is
`((j - i) + N) % N` computed in `isize`, i.e. `(j + N - i) % N`.  The
Rust function appends to a buffer; the model returns the segment. -/
def witness_evals_inside (finv : F → F) (dom : Dom F) (evals : List F) (i : Nat) : List F :=
  let n := dom.size
  let fxi := evals.getD i 0
  let nums := (List.range n).map fun j => evals.getD j 0 - fxi
  let denoms := (((List.range n).map fun j => dom.elem j - dom.elem i).set i 1).map finv
  let base := (List.range n).map fun j => nums.getD j 0 * denoms.getD j 0
  let special := ((List.range n).map fun j =>
    if j = i then 0
    else nums.getD j 0 * (-(denoms.getD j 0)) * dom.elem ((j + n - i) % n)).sum
  base.set i special

/-- kzg.rs `setup` for the vector commitment.  Randomness (the sampled
`g1`, `g2`, `h`, `alpha`) and domain construction (`D::new`) are inputs;
the FK tables `y`/`hat_y` are omitted (their producer is absent from the
source snapshot and nothing modelled here reads them). -/
def kzg_setup (domNew : Nat → Option (Dom F)) (g1 g2 h alpha : F)
    (message_length : Nat) : Option (CommitmentKey F) :=
  if message_length < 1 then none
  else
    match domNew (message_length + 2) with
    | none => none
    | some dom =>
      if g1 = 0 ∨ g2 = 0 then none
      else
        let u := (List.range dom.size).map fun i => g1 * alpha ^ i
        let hat_u := (List.range dom.size).map fun i => h * alpha ^ i
        let lf := dom.lagAt alpha
        let lagranges :=
          ((List.range dom.size).map fun i => g1 * lf.getD i 0) ++
          ((List.range dom.size).map fun i => h * lf.getD i 0)
        let r := g2 * alpha
        let d := (List.range message_length).map fun i => g2 * (alpha - dom.elem i)
        some { message_length := message_length, domain := dom, u := u, hat_u := hat_u,
               lagranges := lagranges, g2 := g2, r := r, d := d }

/-- kzg.rs `commit`.  The rng is modelled as a stream `rng : Nat → F`
supplying the random padding and masking evaluations; `fuel` bounds the
`get_z0` rejection loop.  Returns `none` when the code panics: the
explicit panic on `z0 ∈ D`, or an MSM length mismatch. -/
def commit (env : HashEnv F) (finv : F → F) (fuel : Nat) (ck : CommitmentKey F)
    (m : List F) (rng : Nat → F) : Option (Commitment F × State F) :=
  let dsize := ck.domain.size
  let evals := m ++ (List.range (2 * dsize - m.length)).map rng
  let hat_evals := (evals.drop dsize).take dsize
  match plain_kzg_com ck evals with
  | none => none
  | some com_kzg =>
    match get_z0 env fuel com_kzg with
    | none => none
    | some z0 =>
      if (find_in_domain ck.domain z0).isSome then none
      else
        let invd := inv_diffs finv ck.domain z0
        let y0 := evaluate_outside finv ck.domain evals z0 invd
        let witn1 := witness_evals_outside ck.domain evals y0 invd
        let hat_y0 := evaluate_outside finv ck.domain hat_evals z0 invd
        let witn2 := witness_evals_outside ck.domain hat_evals hat_y0 invd
        match plain_kzg_com ck (witn1 ++ witn2) with
        | none => none
        | some v =>
          some ({ com_kzg := com_kzg, y0 := y0, tau0 := { hat_y := hat_y0, v := v } },
                { evals := evals, precomputed_v := none })

/-- kzg.rs `verify_commitment`: recompute `z0` and run the plain KZG
check on the embedded self-opening. -/
def verify_commitment (env : HashEnv F) (fuel : Nat) (ck : CommitmentKey F)
    (com : Commitment F) : Option Bool :=
  (get_z0 env fuel com.com_kzg).map fun z0 =>
    plain_kzg_verify ck com.com_kzg z0 com.y0 com.tau0

/-- kzg.rs `open` (named `vc_open` because `open` is a Lean keyword):
`none` for `i ≥ message_length`, otherwise the witness commitment (from
the FK cache when present) together with the masking evaluation
`evals[i + domain.size()]`. -/
def vc_open (finv : F → F) (ck : CommitmentKey F) (st : State F) (i : Nat) :
    Option (Opening F) :=
  if ck.message_length ≤ i then none
  else
    let dsize := ck.domain.size
    let ov : Option F :=
      match st.precomputed_v with
      | some vs => vs.get? i
      | none =>
        plain_kzg_com ck
          (witness_evals_inside finv ck.domain st.evals i ++
           witness_evals_inside finv ck.domain ((st.evals.drop dsize).take dsize) i)
    match ov with
    | none => none
    | some v =>
      (st.evals.get? (i + dsize)).map fun hat_y => { hat_y := hat_y, v := v }

/-- kzg.rs `aggregate`: random-linear combination of the openings by the
powers of `chi`. -/
def aggregate (env : HashEnv F) (fuel : Nat) (_ck : CommitmentKey F) (i : Nat)
    (mis : List F) (coms : List (Commitment F)) (openings : List (Opening F)) :
    Option (Opening F) :=
  if mis.length < 1 then none
  else
    match get_chi env fuel i mis coms with
    | none => none
    | some chi =>
      let chi_powers := (List.range mis.length).map fun j => chi ^ j
      match msm (openings.map (fun o => o.v)) chi_powers with
      | none => none
      | some v =>
        let hat_y := ((openings.zip chi_powers).map fun p => p.1.hat_y * p.2).sum
        some { hat_y := hat_y, v := v }

/-- kzg.rs `verify`: recompute `chi`, aggregate the commitments and
values, and run the inside KZG check against `d[i]`. -/
def vc_verify (env : HashEnv F) (fuel : Nat) (ck : CommitmentKey F) (i : Nat)
    (mis : List F) (coms : List (Commitment F)) (opening : Opening F) : Option Bool :=
  if mis.length < 1 then some false
  else
    match get_chi env fuel i mis coms with
    | none => none
    | some chi =>
      let chi_powers := (List.range mis.length).map fun j => chi ^ j
      match msm (coms.map (fun c => c.com_kzg)) chi_powers with
      | none => none
      | some com =>
        let mi := ((mis.zip chi_powers).map fun p => p.1 * p.2).sum
        plain_kzg_verify_inside ck i com mi opening

/-- Lottery parameters (vcbased.rs `Parameters`). -/
structure Parameters (F : Type) where
  ck : CommitmentKey F
  num_lotteries : Nat
  k : Nat
  log_k : Nat

/-- Lottery public key (vcbased.rs `PublicKey`). -/
structure PublicKey (F : Type) where
  com : Commitment F

/-- Lottery secret key (vcbased.rs `SecretKey`). -/
structure SecretKey (F : Type) where
  v : List F
  state : State F

/-- Lottery ticket (vcbased.rs `Ticket`). -/
structure Ticket (F : Type) where
  opening : Opening F
  deriving DecidableEq

/-- vcbased.rs `get_challenge`: hash `("Chall//", pk.com, pid (be32),
i (be32), lseed)` with SHA-256, keep exactly `log_k` bits of the digest
(full bytes first, the trailing partial byte masked), and parse them as a
field element (`from_random_bytes(...).unwrap()`, so `none` is a panic). -/
def get_challenge (env : HashEnv F) (log_k : Nat) (pk : PublicKey F) (pid i : Nat)
    (lseed : List Nat) : Option F :=
  let digest := env.sha256
    (strBytes "Chall//" ++ env.serCom pk.com ++ be32 pid ++ be32 i ++ lseed)
  let num_fullbytes := log_k >>> 3
  let mask := (1 <<< (log_k &&& 7)) - 1
  let hashbytes := ((List.range num_fullbytes).map fun j => digest.getD j 0) ++
    [digest.getD num_fullbytes 0 &&& mask]
  env.fromRandomBytes hashbytes

/-- vcbased.rs `get_random_field_vec`: `n` samples of `rng.gen_range(0..k)`
turned into field elements.  The rng is modelled as a stream of naturals,
reduced into the range `[0, k)`. -/
def get_random_field_vec (samples : Nat → Nat) (k n : Nat) : List F :=
  (List.range n).map fun j => ((samples j % k : Nat) : F)

/-- vcbased.rs `setup` for the lottery: reject `k` that is not a power of
two (the `u32` arithmetic `u32::BITS - k.leading_zeros() - 1` and
`1 << log_k` wraps, matching release semantics), then delegate to the
vector-commitment setup. -/
def lottery_setup (domNew : Nat → Option (Dom F)) (g1 g2 h alpha : F)
    (num_lotteries k : Nat) : Option (Parameters F) :=
  let log_k := u32_sub (u32_sub 32 (u32_leading_zeros k)) 1
  if u32_shl 1 log_k ≠ k ∨ log_k > 256 then none
  else
    (kzg_setup domNew g1 g2 h alpha num_lotteries).map fun ck =>
      { ck := ck, num_lotteries := num_lotteries, k := k, log_k := log_k }

/-- vcbased.rs `gen`: the secret vector is sampled from `{0,…,k-1}` and
committed; `none` models a panic inside `commit`. -/
def lottery_gen (env : HashEnv F) (finv : F → F) (fuel : Nat) (par : Parameters F)
    (samples : Nat → Nat) (rng : Nat → F) : Option (PublicKey F × SecretKey F) :=
  let v : List F := get_random_field_vec samples par.k par.num_lotteries
  (commit env finv fuel par.ck v rng).map fun p =>
    ({ com := p.1 }, { v := v, state := p.2 })

/-- vcbased.rs `verify_key`: delegate to `verify_commitment`. -/
def verify_key (env : HashEnv F) (fuel : Nat) (par : Parameters F) (pk : PublicKey F) :
    Option Bool :=
  verify_commitment env fuel par.ck pk.com

/-- vcbased.rs `participate` as written in the source:
`i as usize <= sk.v.len() && sk.v[i as usize] != x` (note `<=` and `!=`),
with `x = get_challenge(par.log_k, pk, pid, i, lseed)`.  `none` models a
panic: a failed `unwrap` in `get_challenge`, or the out-of-bounds index
`sk.v[i]` that the `<=` bound permits at `i == sk.v.len()`. -/
def participate (env : HashEnv F) (par : Parameters F) (i : Nat) (lseed : List Nat)
    (pid : Nat) (sk : SecretKey F) (pk : PublicKey F) : Option Bool :=
  (get_challenge env par.log_k pk pid i lseed).bind fun x =>
    if i ≤ sk.v.length then (sk.v.get? i).map fun vi => decide (¬ vi = x)
    else some false

/-- The winning predicate the specification (and the source's own comment
"we win if x = v_i") prescribes for `participate`:
`(i < sk.v.len()) && (sk.v[i] == x)`. -/
def participate_claimed (i : Nat) (sk : SecretKey F) (x : F) : Bool :=
  decide (i < sk.v.length) && decide (sk.v.getD i 0 = x)

/-- vcbased.rs `get_ticket`: a ticket is just an opening of the
commitment; the lottery seed, party id and public key parameters are
received but unused. -/
def get_ticket (finv : F → F) (par : Parameters F) (i : Nat) (_lseed : List Nat)
    (_pid : Nat) (sk : SecretKey F) (_pk : PublicKey F) : Option (Ticket F) :=
  (vc_open finv par.ck sk.state i).map fun tau => { opening := tau }

/-- vcbased.rs `aggregate` for the lottery: per-party challenges, then
the vector-commitment aggregation. -/
def lottery_aggregate (env : HashEnv F) (fuel : Nat) (par : Parameters F) (i : Nat)
    (lseed : List Nat) (pids : List Nat) (pks : List (PublicKey F))
    (tickets : List (Ticket F)) : Option (Ticket F) :=
  if pids.length ≠ pks.length ∨ pids.length ≠ tickets.length then none
  else
    let xsOpt := (List.range pids.length).mapM fun j =>
      get_challenge env par.log_k (pks.getD j ⟨⟨0, 0, ⟨0, 0⟩⟩⟩) (pids.getD j 0) i lseed
    match xsOpt with
    | none => none
    | some xs =>
      let coms := pks.map fun pk => pk.com
      let openings := tickets.map fun t => t.opening
      (aggregate env fuel par.ck i xs coms openings).map fun tau => { opening := tau }

/-- vcbased.rs `verify` for the lottery: per-party challenges, then the
vector-commitment verification. -/
def lottery_verify (env : HashEnv F) (fuel : Nat) (par : Parameters F) (i : Nat)
    (lseed : List Nat) (pids : List Nat) (pks : List (PublicKey F))
    (ticket : Ticket F) : Option Bool :=
  if pids.length ≠ pks.length then some false
  else
    let xsOpt := (List.range pids.length).mapM fun j =>
      get_challenge env par.log_k (pks.getD j ⟨⟨0, 0, ⟨0, 0⟩⟩⟩) (pids.getD j 0) i lseed
    match xsOpt with
    | none => none
    | some xs =>
      let coms := pks.map fun pk => pk.com
      vc_verify env fuel par.ck i xs coms ticket.opening

/-! ### FK amortized all-openings (kzg_fk_open.rs)

The bodies of `precompute_openings`, `precompute_openings_single` and
`base_poly` are `todo!()` stubs in the source snapshot; only their
signatures, doc comments and tests remain.  The computation is therefore
modelled from the specification (§4.2, FK Proposition 1, quoted verbatim
in the in-source test `test_base_poly`), in the same discrete-log model:
`u[j] = g1·alpha^j` is represented by the scalar `alpha^j`, so a
commitment to a polynomial in the `u` basis is its evaluation at `alpha`.
-/

/-- Coefficient `a` of the long-division quotient `(f - f(z)) / (X - z)`
of a polynomial with coefficients `f 0, …, f d`:
`q_a = sum_{j=a+1}^{d} f_j z^{j-1-a}`.  This is the naive opening path of
the in-source test `test_precompute_openings_single` (long division, then
an MSM against `u`). -/
def quotCoeff (f : Nat → F) (z : F) (d a : Nat) : F :=
  ∑ t in Finset.range (d - a), f (a + 1 + t) * z ^ t

/-- Modelled from the spec: coefficient `i` of the FK base polynomial `h`
(`precompute_openings_single` step 1, `base_poly`), per Proposition 1 as
quoted in `test_base_poly`:
`h_i = f[d]·u[d-i] + … + f[i]·u[0]`, i.e. `h_i = sum_t f_(i+t)·alpha^t`,
for `i = 1, …, d`. -/
def fk_base_poly (f : Nat → F) (alpha : F) (d i : Nat) : F :=
  ∑ t in Finset.range (d - i + 1), f (i + t) * alpha ^ t

/-- Modelled from the spec: the FK opening that
`precompute_openings_single` produces at an evaluation point `z` of the
domain — the evaluation `h(z)` of the base polynomial by the FFT in the
exponent (`h` has coefficients `h_1, …, h_d`). -/
def fk_openings_at (f : Nat → F) (alpha z : F) (d : Nat) : F :=
  ∑ b in Finset.range d, fk_base_poly f alpha d (b + 1) * z ^ b

/-- The naive KZG opening at `z`: the commitment (evaluation at `alpha`)
of the long-division quotient `(f - f(z)) / (X - z)`, as computed by the
in-source test `test_precompute_openings_single`. -/
def naive_opening_at (f : Nat → F) (alpha z : F) (d : Nat) : F :=
  ∑ a in Finset.range d, quotCoeff f z d a * alpha ^ a

/-! ### Concrete test instance over `ZMod 5`

Used by witnesses and counterexamples.  The evaluation domain is the
group of fourth roots of unity `{1, 2, 4, 3}` generated by `2` in
`ZMod 5` (so `N = 4`), with vanishing polynomial `z^4 - 1`; the external
inversion is `x ↦ x^3` (correct on `ZMod 5` since `x^4 = 1` for
`x ≠ 0`), and the hash oracle returns constants. -/

/-- Concrete hash environment over `ZMod 5`: SHA-256 returns 32 zero
bytes, `from_random_bytes` always parses to `0`, serializers are empty. -/
def env5 : HashEnv (ZMod 5) where
  sha256 := fun _ => List.replicate 32 0
  fromRandomBytes := fun _ => some 0
  serG1 := fun _ => []
  serF := fun _ => []
  serCom := fun _ => []

/-- Concrete field inversion on `ZMod 5`. -/
def finv5 : ZMod 5 → ZMod 5 := fun x => x ^ 3

/-- The radix-2 evaluation domain of size 4 in `ZMod 5`. -/
def dom5 : Dom (ZMod 5) where
  size := 4
  elem := fun i => 2 ^ (i % 4)
  zEval := fun z => z ^ 4 - 1
  lagAt := fun _ => [4, 4, 4, 4]

/-- Concrete domain constructor: the size-4 domain for any requested
size up to 4. -/
def domNew5 : Nat → Option (Dom (ZMod 5)) := fun n => if n ≤ 4 then some dom5 else none

/-- The commitment key `kzg_setup domNew5 1 1 1 0 1` produces (message
length 1, `g1 = g2 = h = 1`, `alpha = 0`). -/
def ck5 : CommitmentKey (ZMod 5) where
  message_length := 1
  domain := dom5
  u := [1, 0, 0, 0]
  hat_u := [1, 0, 0, 0]
  lagranges := [4, 4, 4, 4, 4, 4, 4, 4]
  g2 := 1
  r := 0
  d := [4]

/-- The commitment `commit env5 finv5 1 ck5 [0] (fun _ => 0)` produces. -/
def com5 : Commitment (ZMod 5) := { com_kzg := 0, y0 := 0, tau0 := { hat_y := 0, v := 0 } }

/-- The state `commit env5 finv5 1 ck5 [0] (fun _ => 0)` produces. -/
def st5 : State (ZMod 5) := { evals := List.replicate 8 0, precomputed_v := none }

/-- Zero commitment, used as the (never-inspected) default of indexed
accesses in list-valued statements. -/
def defaultCommitment : Commitment F := { com_kzg := 0, y0 := 0, tau0 := { hat_y := 0, v := 0 } }

/-- Zero opening, used as the (never-inspected) default of indexed
accesses in list-valued statements. -/
def defaultOpening : Opening F := { hat_y := 0, v := 0 }

/-- Contract of the external evaluation-domain, Lagrange-coefficient and
batch-inversion libraries (arkworks), on which the correctness of commit,
open and verify rests.  For a radix-2 domain `{omega^i}` of size `N` with
vanishing polynomial `Z(X) = X^N - 1` and exact field inversion `finv`,
every field below is a standard identity:

* `finv_mul` — exact inversion of nonzero elements;
* `size_ne` — `N` is invertible in the scalar field (required for FFTs);
* `vanish` — domain elements are roots of the vanishing polynomial;
* `lag_identity` — the barycentric form of the Lagrange coefficients,
  `N * (alpha - x_i) * L_i(alpha) = Z(alpha) * x_i`, valid for every
  `alpha` as a polynomial identity;
* `lag_sum` — partition of unity of the Lagrange coefficients;
* `pole_sum` — `Z(z) * sum_i x_i/(x_i - z) = -N` for `z` outside the
  domain (the logarithmic-derivative identity of `Z`);
* `cyc` — the domain elements form a cyclic group:
  `x_((j - i) mod N) * x_i = x_j`;
* `distinct` — the domain elements are pairwise distinct. -/
structure DomainContract (dom : Dom F) (finv : F → F) (alpha : F) : Prop where
  finv_mul : ∀ t : F, t ≠ 0 → t * finv t = 1
  size_ne : ((dom.size : F)) ≠ 0
  vanish : ∀ i < dom.size, dom.zEval (dom.elem i) = 0
  lag_identity : ∀ i < dom.size,
    (dom.size : F) * ((alpha - dom.elem i) * (dom.lagAt alpha).getD i 0) =
      dom.zEval alpha * dom.elem i
  lag_sum : ∑ i in Finset.range dom.size, (dom.lagAt alpha).getD i 0 = 1
  pole_sum : ∀ z : F, (∀ i < dom.size, dom.elem i ≠ z) →
    dom.zEval z * ∑ i in Finset.range dom.size, dom.elem i * finv (dom.elem i - z) =
      -((dom.size : F))
  cyc : ∀ a < dom.size, ∀ b < dom.size,
    dom.elem ((b + dom.size - a) % dom.size) * dom.elem a = dom.elem b
  distinct : ∀ j < dom.size, ∀ i < dom.size, j ≠ i → dom.elem j ≠ dom.elem i

/-! ### List and sum bookkeeping lemmas -/

lemma getD_range_map (f : Nat → F) (n i : Nat) (h : i < n) :
    ((List.range n).map f).getD i 0 = f i := by
  simp [List.getD_eq_getElem?_getD, List.getElem?_map, List.getElem?_range h]

lemma getD_append_left (l1 l2 : List F) (i : Nat) (h : i < l1.length) :
    (l1 ++ l2).getD i 0 = l1.getD i 0 := by
  simp [List.getD_eq_getElem?_getD, List.getElem?_append, h]

lemma getD_append_right (l1 l2 : List F) (i : Nat) (h : l1.length ≤ i) :
    (l1 ++ l2).getD i 0 = l2.getD (i - l1.length) 0 := by
  simp [List.getD_eq_getElem?_getD, List.getElem?_append_right h]

lemma getD_take_drop (l : List F) (n j : Nat) (hj : j < n) :
    ((l.drop n).take n).getD j 0 = l.getD (n + j) 0 := by
  simp [List.getD_eq_getElem?_getD, List.getElem?_take, List.getElem?_drop, hj]

lemma getD_set_ne (l : List F) (i j : Nat) (a : F) (h : j ≠ i) :
    (l.set i a).getD j 0 = l.getD j 0 := by
  simp [List.getD_eq_getElem?_getD, List.getElem?_set_ne (Ne.symm h)]

lemma getD_set_self (l : List F) (i : Nat) (a : F) (h : i < l.length) :
    (l.set i a).getD i 0 = a := by
  simp [List.getD_eq_getElem?_getD, List.getElem?_set_self, h]

lemma list_range_map_sum (n : Nat) (f : Nat → F) :
    ((List.range n).map f).sum = ∑ i in Finset.range n, f i := by
  induction n with
  | zero => simp
  | succ n ih =>
    rw [List.range_succ, List.map_append, List.sum_append, Finset.sum_range_succ, ih]
    simp

lemma zip_map_sum (bases scalars : List F) (h : bases.length = scalars.length) :
    ((bases.zip scalars).map fun p => p.1 * p.2).sum =
      ∑ i in Finset.range bases.length, bases.getD i 0 * scalars.getD i 0 := by
  induction bases generalizing scalars with
  | nil => simp
  | cons b bs ih =>
    cases scalars with
    | nil => simp at h
    | cons s ss =>
      simp only [List.zip_cons_cons, List.map_cons, List.sum_cons, List.length_cons]
      rw [Finset.sum_range_succ']
      simp only [List.getD_cons_succ, List.getD_cons_zero]
      rw [ih ss (by simpa using h)]
      ring

lemma msm_eq_some (bases scalars : List F) (h : bases.length = scalars.length) :
    msm bases scalars =
      some (∑ i in Finset.range bases.length, bases.getD i 0 * scalars.getD i 0) := by
  unfold msm
  rw [if_pos h, zip_map_sum bases scalars h]

lemma msm_some_inv (bases scalars : List F) (v : F) (h : msm bases scalars = some v) :
    bases.length = scalars.length ∧
      v = ∑ i in Finset.range bases.length, bases.getD i 0 * scalars.getD i 0 := by
  unfold msm at h
  by_cases hl : bases.length = scalars.length
  · rw [if_pos hl] at h
    exact ⟨hl, by rw [← zip_map_sum bases scalars hl]; exact (Option.some_inj.mp h).symm⟩
  · rw [if_neg hl] at h
    exact absurd h (by simp)

lemma sum_range_split (n : Nat) (f : Nat → F) :
    ∑ i in Finset.range (n + n), f i =
      (∑ i in Finset.range n, f i) + ∑ i in Finset.range n, f (n + i) := by
  exact Finset.sum_range_add f n n

/-! ### Structure of setup outputs and of the in-domain search -/

lemma kzg_setup_inv (domNew : Nat → Option (Dom F)) (g1 g2 h alpha : F) (ml : Nat)
    (ck : CommitmentKey F) (hs : kzg_setup domNew g1 g2 h alpha ml = some ck) :
    1 ≤ ml ∧ g1 ≠ 0 ∧ g2 ≠ 0 ∧ domNew (ml + 2) = some ck.domain ∧
      ck.message_length = ml ∧
      ck.u = ((List.range ck.domain.size).map fun i => g1 * alpha ^ i) ∧
      ck.hat_u = ((List.range ck.domain.size).map fun i => h * alpha ^ i) ∧
      ck.lagranges =
        ((List.range ck.domain.size).map fun i => g1 * (ck.domain.lagAt alpha).getD i 0) ++
          ((List.range ck.domain.size).map fun i => h * (ck.domain.lagAt alpha).getD i 0) ∧
      ck.g2 = g2 ∧ ck.r = g2 * alpha ∧
      ck.d = ((List.range ml).map fun i => g2 * (alpha - ck.domain.elem i)) := by
  unfold kzg_setup at hs
  by_cases h1 : ml < 1
  · rw [if_pos h1] at hs; exact absurd hs (by simp)
  · rw [if_neg h1] at hs
    rcases hd : domNew (ml + 2) with _ | dom
    · rw [hd] at hs; exact absurd hs (by simp)
    · rw [hd] at hs
      dsimp only at hs
      by_cases h2 : g1 = 0 ∨ g2 = 0
      · rw [if_pos h2] at hs; exact absurd hs (by simp)
      · rw [if_neg h2] at hs
        simp only [Option.some_inj] at hs
        subst hs
        push_neg at h2
        exact ⟨by omega, h2.1, h2.2, rfl, rfl, rfl, rfl, rfl, rfl, rfl, rfl⟩

lemma find_fold_none (dom : Dom F) (z : F) :
    ∀ (l : List Nat) (acc : Option Nat),
      l.foldl (fun y j => if z = dom.elem j then some j else y) acc = none →
        acc = none ∧ ∀ j ∈ l, ¬ z = dom.elem j := by
  intro l
  induction l with
  | nil => intro acc hsearch; exact ⟨hsearch, by simp⟩
  | cons a l ih =>
    intro acc hsearch
    rw [List.foldl_cons] at hsearch
    rcases ih _ hsearch with ⟨hacc, hrest⟩
    by_cases hza : z = dom.elem a
    · rw [if_pos hza] at hacc; exact absurd hacc (by simp)
    · rw [if_neg hza] at hacc
      refine ⟨hacc, ?_⟩
      intro j hj
      rcases List.mem_cons.mp hj with hj1 | hj2
      · subst hj1; exact hza
      · exact hrest j hj2

/-- If `find_in_domain` reports no match and the domain elements are roots
of the vanishing polynomial, then `z` differs from every domain element. -/
lemma find_in_domain_none (dom : Dom F) (z : F)
    (hvan : ∀ i < dom.size, dom.zEval (dom.elem i) = 0)
    (hfind : find_in_domain dom z = none) : ∀ i < dom.size, dom.elem i ≠ z := by
  intro i hi heq
  unfold find_in_domain at hfind
  by_cases hz : dom.zEval z = 0
  · rw [if_pos hz] at hfind
    have hmem := (find_fold_none dom z (List.range dom.size) none hfind).2
    exact hmem i (List.mem_range.mpr hi) heq.symm
  · rw [← heq] at hz
    exact hz (hvan i hi)

/-! ### The two algebraic identities behind opening correctness -/

/-- Correctness of the outside-domain witness construction in evaluation
form: with `y0` the barycentric evaluation of `f` at `z` (as computed by
`evaluate_outside`), the Lagrange-basis combination of the outside witness
evaluations opens the Lagrange-basis commitment of `f` at `z`. -/
lemma outside_identity (n : Nat) (x lagv : Nat → F) (finv : F → F)
    (alpha z Zalpha Zz : F) (e : Nat → F) (y0 : F)
    (Hfinv : ∀ t : F, t ≠ 0 → t * finv t = 1)
    (HN : (n : F) ≠ 0)
    (Hz : ∀ i < n, x i ≠ z)
    (Hlag : ∀ i < n, (n : F) * ((alpha - x i) * lagv i) = Zalpha * x i)
    (Hsum : ∑ i in Finset.range n, lagv i = 1)
    (Hpole : Zz * ∑ i in Finset.range n, x i * finv (x i - z) = -((n : F)))
    (Hy0 : y0 = Zz * finv ((n : F)) *
      ∑ i in Finset.range n, e i * (-(x i) * finv (x i - z))) :
    (alpha - z) * ∑ i in Finset.range n, lagv i * ((e i - y0) * finv (x i - z)) =
      (∑ i in Finset.range n, lagv i * e i) - y0 := by
  have hNinv : (n : F) * finv ((n : F)) = 1 := Hfinv _ HN
  have hlagc : ∀ i < n, (alpha - x i) * lagv i = Zalpha * finv ((n : F)) * x i := by
    intro i hi
    calc (alpha - x i) * lagv i
        = ((n : F) * finv ((n : F))) * ((alpha - x i) * lagv i) := by rw [hNinv, one_mul]
      _ = finv ((n : F)) * ((n : F) * ((alpha - x i) * lagv i)) := by ring
      _ = finv ((n : F)) * (Zalpha * x i) := by rw [Hlag i hi]
      _ = Zalpha * finv ((n : F)) * x i := by ring
  have hdiff : ∀ i < n, (x i - z) * finv (x i - z) = 1 := fun i hi =>
    Hfinv _ (sub_ne_zero_of_ne (Hz i hi))
  have hyT : y0 * ∑ i in Finset.range n, x i * finv (x i - z) =
      ∑ i in Finset.range n, e i * (x i * finv (x i - z)) := by
    have hneg : (∑ i in Finset.range n, e i * (-(x i) * finv (x i - z))) =
        -∑ i in Finset.range n, e i * (x i * finv (x i - z)) := by
      rw [← Finset.sum_neg_distrib]
      exact Finset.sum_congr rfl (fun i _ => by ring)
    rw [Hy0, hneg]
    calc Zz * finv ((n : F)) * -(∑ i in Finset.range n, e i * (x i * finv (x i - z))) *
          ∑ i in Finset.range n, x i * finv (x i - z)
        = (Zz * ∑ i in Finset.range n, x i * finv (x i - z)) *
            (finv ((n : F)) * -(∑ i in Finset.range n, e i * (x i * finv (x i - z)))) := by
          ring
      _ = -((n : F)) * (finv ((n : F)) *
            -(∑ i in Finset.range n, e i * (x i * finv (x i - z)))) := by rw [Hpole]
      _ = ((n : F) * finv ((n : F))) *
            (∑ i in Finset.range n, e i * (x i * finv (x i - z))) := by ring
      _ = ∑ i in Finset.range n, e i * (x i * finv (x i - z)) := by rw [hNinv, one_mul]
  have expand : ∀ i ∈ Finset.range n,
      (alpha - z) * (lagv i * ((e i - y0) * finv (x i - z))) =
        Zalpha * finv ((n : F)) * (e i * (x i * finv (x i - z))) -
          Zalpha * finv ((n : F)) * (y0 * (x i * finv (x i - z))) +
          (lagv i * e i - lagv i * y0) := by
    intro i hi
    have hi' := Finset.mem_range.mp hi
    calc (alpha - z) * (lagv i * ((e i - y0) * finv (x i - z)))
        = ((alpha - x i) * lagv i) * ((e i - y0) * finv (x i - z)) +
            ((x i - z) * finv (x i - z)) * (lagv i * (e i - y0)) := by ring
      _ = (Zalpha * finv ((n : F)) * x i) * ((e i - y0) * finv (x i - z)) +
            1 * (lagv i * (e i - y0)) := by rw [hlagc i hi', hdiff i hi']
      _ = Zalpha * finv ((n : F)) * (e i * (x i * finv (x i - z))) -
            Zalpha * finv ((n : F)) * (y0 * (x i * finv (x i - z))) +
            (lagv i * e i - lagv i * y0) := by ring
  rw [Finset.mul_sum, Finset.sum_congr rfl expand]
  rw [Finset.sum_add_distrib, Finset.sum_sub_distrib, Finset.sum_sub_distrib,
    ← Finset.mul_sum, ← Finset.mul_sum, ← Finset.mul_sum, ← Finset.sum_mul, hyT, Hsum]
  ring

/-- Correctness of the inside-domain witness construction in evaluation
form (`witness_evals_inside`), including the Feist-Khovratovich patch of
the singular evaluation: the Lagrange-basis combination of the witness
evaluations opens the Lagrange-basis commitment of `f` at `x i`. -/
lemma inside_identity (n : Nat) (x lagv : Nat → F) (finv : F → F) (alpha Zalpha : F)
    (e : Nat → F) (i : Nat) (hin : i < n)
    (Hfinv : ∀ t : F, t ≠ 0 → t * finv t = 1)
    (HN : (n : F) ≠ 0)
    (Hlag : ∀ j < n, (n : F) * ((alpha - x j) * lagv j) = Zalpha * x j)
    (Hsum : ∑ j in Finset.range n, lagv j = 1)
    (Hcyc : ∀ a < n, ∀ b < n, x ((b + n - a) % n) * x a = x b)
    (Hdist : ∀ j < n, j ≠ i → x j ≠ x i) :
    (alpha - x i) * ∑ j in Finset.range n,
        lagv j * (if j = i
          then ∑ j2 in Finset.range n, (if j2 = i then 0
            else (e j2 - e i) * (-(finv (x j2 - x i))) * x ((j2 + n - i) % n))
          else (e j - e i) * finv (x j - x i)) =
      (∑ j in Finset.range n, lagv j * e j) - e i := by
  have hNinv : (n : F) * finv ((n : F)) = 1 := Hfinv _ HN
  have hlagc : ∀ j < n, (alpha - x j) * lagv j = Zalpha * finv ((n : F)) * x j := by
    intro j hj
    calc (alpha - x j) * lagv j
        = ((n : F) * finv ((n : F))) * ((alpha - x j) * lagv j) := by rw [hNinv, one_mul]
      _ = finv ((n : F)) * ((n : F) * ((alpha - x j) * lagv j)) := by ring
      _ = finv ((n : F)) * (Zalpha * x j) := by rw [Hlag j hj]
      _ = Zalpha * finv ((n : F)) * x j := by ring
  have hdiff : ∀ j < n, j ≠ i → (x j - x i) * finv (x j - x i) = 1 := fun j hj hne =>
    Hfinv _ (sub_ne_zero_of_ne (Hdist j hj hne))
  have split1 : ∀ (g : Nat → F) (A : F),
      ∑ j in Finset.range n, (if j = i then A else g j) =
        A + ∑ j in Finset.range n, (if j = i then 0 else g j) := by
    intro g A
    have hterm : ∀ j ∈ Finset.range n, (if j = i then A else g j) =
        (if j = i then A else 0) + (if j = i then 0 else g j) := by
      intro j _
      by_cases hj : j = i <;> simp [hj]
    rw [Finset.sum_congr rfl hterm, Finset.sum_add_distrib]
    congr 1
    rw [Finset.sum_ite_eq' (Finset.range n) i (fun _ => A)]
    simp [Finset.mem_range.mpr hin]
  have split0 : ∀ g : Nat → F,
      ∑ j in Finset.range n, (if j = i then 0 else g j) =
        (∑ j in Finset.range n, g j) - g i := by
    intro g
    have hfull : ∑ j in Finset.range n, g j =
        ∑ j in Finset.range n, (if j = i then g i else g j) := by
      refine Finset.sum_congr rfl ?_
      intro j _
      by_cases hj : j = i <;> simp [hj]
    rw [hfull, split1 g (g i)]
    ring
  set c := Zalpha * finv ((n : F)) with hc
  set s := ∑ j2 in Finset.range n, (if j2 = i then 0
    else (e j2 - e i) * (-(finv (x j2 - x i))) * x ((j2 + n - i) % n)) with hs
  have pre : ∀ j ∈ Finset.range n,
      lagv j * (if j = i then s else (e j - e i) * finv (x j - x i)) =
        (if j = i then lagv i * s else lagv j * ((e j - e i) * finv (x j - x i))) := by
    intro j _
    by_cases hji : j = i
    · simp [hji]
    · simp [hji]
  rw [Finset.sum_congr rfl pre]
  rw [split1 (fun j => lagv j * ((e j - e i) * finv (x j - x i))) (lagv i * s)]
  rw [mul_add]
  have term1 : (alpha - x i) * (lagv i * s) =
      -(c * ∑ j in Finset.range n,
        (if j = i then 0 else (e j - e i) * finv (x j - x i) * x j)) := by
    have h1 : (alpha - x i) * (lagv i * s) = (c * x i) * s := by
      rw [show (alpha - x i) * (lagv i * s) = ((alpha - x i) * lagv i) * s from by ring,
        hlagc i hin]
    rw [h1, hs, Finset.mul_sum, Finset.mul_sum]
    rw [← Finset.sum_neg_distrib]
    refine Finset.sum_congr rfl ?_
    intro j hj
    by_cases hji : j = i
    · simp [hji]
    · rw [if_neg hji, if_neg hji]
      have hx : x ((j + n - i) % n) * x i = x j := Hcyc i hin j (Finset.mem_range.mp hj)
      calc c * x i * ((e j - e i) * -(finv (x j - x i)) * x ((j + n - i) % n))
          = -(c * ((e j - e i) * finv (x j - x i)) * (x ((j + n - i) % n) * x i)) := by ring
        _ = -(c * ((e j - e i) * finv (x j - x i)) * x j) := by rw [hx]
        _ = -(c * ((e j - e i) * finv (x j - x i) * x j)) := by ring
  have term2 : (alpha - x i) * ∑ j in Finset.range n,
      (if j = i then 0 else lagv j * ((e j - e i) * finv (x j - x i))) =
        (c * ∑ j in Finset.range n,
          (if j = i then 0 else (e j - e i) * finv (x j - x i) * x j)) +
        ∑ j in Finset.range n, (if j = i then 0 else lagv j * (e j - e i)) := by
    rw [Finset.mul_sum, Finset.mul_sum, ← Finset.sum_add_distrib]
    refine Finset.sum_congr rfl ?_
    intro j hj
    by_cases hji : j = i
    · simp [hji]
    · rw [if_neg hji, if_neg hji, if_neg hji]
      have hj' := Finset.mem_range.mp hj
      calc (alpha - x i) * (lagv j * ((e j - e i) * finv (x j - x i)))
          = ((alpha - x j) * lagv j) * ((e j - e i) * finv (x j - x i)) +
              ((x j - x i) * finv (x j - x i)) * (lagv j * (e j - e i)) := by ring
        _ = (c * x j) * ((e j - e i) * finv (x j - x i)) +
              1 * (lagv j * (e j - e i)) := by rw [hlagc j hj', hdiff j hj' hji]
        _ = c * ((e j - e i) * finv (x j - x i) * x j) + lagv j * (e j - e i) := by ring
  rw [term1, term2]
  have tail : ∑ j in Finset.range n, (if j = i then 0 else lagv j * (e j - e i)) =
      (∑ j in Finset.range n, lagv j * e j) - e i := by
    rw [split0 (fun j => lagv j * (e j - e i))]
    have hsub : ∑ j in Finset.range n, lagv j * (e j - e i) =
        (∑ j in Finset.range n, lagv j * e j) -
          (∑ j in Finset.range n, lagv j) * e i := by
      rw [Finset.sum_mul, ← Finset.sum_sub_distrib]
      exact Finset.sum_congr rfl (fun j _ => by ring)
    rw [hsub, Hsum]
    ring
  rw [tail]
  ring

lemma fk_base_eq_quot (f : Nat → F) (alpha : F) (d b : Nat) (hb : b < d) :
    fk_base_poly f alpha d (b + 1) = quotCoeff f alpha d b := by
  unfold fk_base_poly quotCoeff
  have h : d - (b + 1) + 1 = d - b := by omega
  rw [h]

lemma quotCoeff_succ (f : Nat → F) (z : F) (d a : Nat) (ha : a ≤ d) :
    quotCoeff f z (d + 1) a = quotCoeff f z d a + f (d + 1) * z ^ (d - a) := by
  have harg : a + 1 + (d - a) = d + 1 := by omega
  unfold quotCoeff
  rw [show d + 1 - a = (d - a) + 1 from by omega, Finset.sum_range_succ, harg]

lemma quotCoeff_self (f : Nat → F) (z : F) (d : Nat) : quotCoeff f z d d = 0 := by
  unfold quotCoeff
  simp

/-- The bivariate sum `sum_a q_a(z)·tau^a` is symmetric in `tau` and `z`. -/
lemma sum_quot_symm (f : Nat → F) (tau z : F) (d : Nat) :
    ∑ a in Finset.range d, quotCoeff f z d a * tau ^ a =
      ∑ a in Finset.range d, quotCoeff f tau d a * z ^ a := by
  induction d with
  | zero => simp
  | succ d ih =>
    have expand : ∀ w v : F, ∑ a in Finset.range (d + 1), quotCoeff f v (d + 1) a * w ^ a =
        (∑ a in Finset.range d, quotCoeff f v d a * w ^ a) +
          f (d + 1) * ∑ a in Finset.range (d + 1), v ^ (d - a) * w ^ a := by
      intro w v
      have step : ∀ a ∈ Finset.range (d + 1),
          quotCoeff f v (d + 1) a * w ^ a =
            quotCoeff f v d a * w ^ a + f (d + 1) * (v ^ (d - a) * w ^ a) := by
        intro a ha
        rw [quotCoeff_succ f v d a (Nat.lt_succ_iff.mp (Finset.mem_range.mp ha))]
        ring
      calc ∑ a in Finset.range (d + 1), quotCoeff f v (d + 1) a * w ^ a
          = ∑ a in Finset.range (d + 1),
              (quotCoeff f v d a * w ^ a + f (d + 1) * (v ^ (d - a) * w ^ a)) :=
            Finset.sum_congr rfl step
        _ = (∑ a in Finset.range (d + 1), quotCoeff f v d a * w ^ a) +
              f (d + 1) * ∑ a in Finset.range (d + 1), v ^ (d - a) * w ^ a := by
            rw [Finset.sum_add_distrib, ← Finset.mul_sum]
        _ = (∑ a in Finset.range d, quotCoeff f v d a * w ^ a) +
              f (d + 1) * ∑ a in Finset.range (d + 1), v ^ (d - a) * w ^ a := by
            rw [Finset.sum_range_succ (fun a => quotCoeff f v d a * w ^ a) d,
              quotCoeff_self]
            ring
    rw [expand tau z, expand z tau, ih]
    congr 1
    congr 1
    rw [← Finset.sum_range_reflect]
    apply Finset.sum_congr rfl
    intro a ha
    have h2 : a < d + 1 := Finset.mem_range.mp ha
    have h1 : d - (d - a) = a := by omega
    rw [Nat.add_sub_cancel]
    rw [h1]
    ring

/-- The division identity certifying that `quotCoeff` is the long-division
quotient: `(tau - z) * q(tau) = f(tau) - f(z)` for every `tau`, where `f`
has coefficients `f 0, …, f d`. -/
lemma quot_div_identity (f : Nat → F) (z tau : F) (d : Nat) :
    (tau - z) * (∑ a in Finset.range d, quotCoeff f z d a * tau ^ a) =
      (∑ j in Finset.range (d + 1), f j * tau ^ j) -
        (∑ j in Finset.range (d + 1), f j * z ^ j) := by
  induction d with
  | zero => simp
  | succ d ih =>
    have expand : ∑ a in Finset.range (d + 1), quotCoeff f z (d + 1) a * tau ^ a =
        (∑ a in Finset.range d, quotCoeff f z d a * tau ^ a) +
          f (d + 1) * ∑ a in Finset.range (d + 1), tau ^ a * z ^ (d - a) := by
      have step : ∀ a ∈ Finset.range (d + 1),
          quotCoeff f z (d + 1) a * tau ^ a =
            quotCoeff f z d a * tau ^ a + f (d + 1) * (tau ^ a * z ^ (d - a)) := by
        intro a ha
        rw [quotCoeff_succ f z d a (Nat.lt_succ_iff.mp (Finset.mem_range.mp ha))]
        ring
      calc ∑ a in Finset.range (d + 1), quotCoeff f z (d + 1) a * tau ^ a
          = ∑ a in Finset.range (d + 1),
              (quotCoeff f z d a * tau ^ a + f (d + 1) * (tau ^ a * z ^ (d - a))) :=
            Finset.sum_congr rfl step
        _ = (∑ a in Finset.range (d + 1), quotCoeff f z d a * tau ^ a) +
              f (d + 1) * ∑ a in Finset.range (d + 1), tau ^ a * z ^ (d - a) := by
            rw [Finset.sum_add_distrib, ← Finset.mul_sum]
        _ = (∑ a in Finset.range d, quotCoeff f z d a * tau ^ a) +
              f (d + 1) * ∑ a in Finset.range (d + 1), tau ^ a * z ^ (d - a) := by
            rw [Finset.sum_range_succ (fun a => quotCoeff f z d a * tau ^ a) d,
              quotCoeff_self]
            ring
    have geo : (∑ a in Finset.range (d + 1), tau ^ a * z ^ (d - a)) * (tau - z) =
        tau ^ (d + 1) - z ^ (d + 1) := by
      have := geom_sum₂_mul tau z (d + 1)
      simpa using this
    have key : (tau - z) * (f (d + 1) * ∑ a in Finset.range (d + 1), tau ^ a * z ^ (d - a)) =
        f (d + 1) * (tau ^ (d + 1) - z ^ (d + 1)) := by
      rw [mul_comm (tau - z), mul_assoc, geo]
    rw [Finset.sum_range_succ (fun j => f j * tau ^ j) (d + 1),
      Finset.sum_range_succ (fun j => f j * z ^ j) (d + 1), expand, mul_add, ih, key]
    ring

/-- Claim C3: for every message position, the FK amortized all-openings
computation produces exactly the KZG commitment to the quotient
polynomial `(f - f(x_i))/(X - x_i)` — i.e. it agrees with the naive
(non-preprocessed) opening path at every index `i`. -/
theorem fk_openings_eq_naive (f : Nat → F) (alpha : F) (x : Nat → F) (d i : Nat) :
    fk_openings_at f alpha (x i) d = naive_opening_at f alpha (x i) d := by
  unfold fk_openings_at naive_opening_at
  have h1 : ∀ b ∈ Finset.range d, fk_base_poly f alpha d (b + 1) * (x i) ^ b =
      quotCoeff f alpha d b * (x i) ^ b := by
    intro b hb
    rw [fk_base_eq_quot f alpha d b (Finset.mem_range.mp hb)]
  rw [Finset.sum_congr rfl h1, sum_quot_symm]

/-! ### Values of the evaluation-form constructions -/

lemma getD_map_lt (f : F → F) (l : List F) (j : Nat) (h : j < l.length) :
    (l.map f).getD j 0 = f (l.getD j 0) := by
  simp [List.getD_eq_getElem?_getD, List.getElem?_map, List.getElem?_eq_getElem h]

lemma inv_diffs_getD (finv : F → F) (dom : Dom F) (z : F) (i : Nat) (h : i < dom.size) :
    (inv_diffs finv dom z).getD i 0 = finv (dom.elem i - z) := by
  unfold inv_diffs
  rw [List.map_map]
  exact getD_range_map _ _ _ h

lemma witness_evals_outside_getD (dom : Dom F) (evals : List F) (fz : F) (invd : List F)
    (j : Nat) (h : j < dom.size) :
    (witness_evals_outside dom evals fz invd).getD j 0 =
      (evals.getD j 0 - fz) * invd.getD j 0 := by
  unfold witness_evals_outside
  exact getD_range_map _ _ _ h

lemma witness_evals_outside_length (dom : Dom F) (evals : List F) (fz : F)
    (invd : List F) : (witness_evals_outside dom evals fz invd).length = dom.size := by
  unfold witness_evals_outside
  simp

lemma evaluate_outside_eq (finv : F → F) (dom : Dom F) (evals : List F) (z : F) :
    evaluate_outside finv dom evals z (inv_diffs finv dom z) =
      dom.zEval z * finv ((dom.size : F)) *
        ∑ i in Finset.range dom.size,
          evals.getD i 0 * (-(dom.elem i) * finv (dom.elem i - z)) := by
  unfold evaluate_outside
  rw [list_range_map_sum]
  rw [Finset.sum_congr rfl (fun i hi => by
    rw [inv_diffs_getD finv dom z i (Finset.mem_range.mp hi)])]

lemma witness_evals_inside_length (finv : F → F) (dom : Dom F) (evals : List F)
    (i : Nat) : (witness_evals_inside finv dom evals i).length = dom.size := by
  unfold witness_evals_inside
  simp

lemma witness_evals_inside_getD (finv : F → F) (dom : Dom F) (evals : List F)
    (i j : Nat) (hi : i < dom.size) (hj : j < dom.size) :
    (witness_evals_inside finv dom evals i).getD j 0 =
      if j = i
      then ∑ j2 in Finset.range dom.size, (if j2 = i then 0
        else (evals.getD j2 0 - evals.getD i 0) *
          (-(finv (dom.elem j2 - dom.elem i))) * dom.elem ((j2 + dom.size - i) % dom.size))
      else (evals.getD j 0 - evals.getD i 0) * finv (dom.elem j - dom.elem i) := by
  unfold witness_evals_inside
  have hbase : ((List.range dom.size).map fun j2 =>
      (((List.range dom.size).map fun j3 => evals.getD j3 0 - evals.getD i 0).getD j2 0) *
        ((((List.range dom.size).map fun j3 => dom.elem j3 - dom.elem i).set i 1).map
          finv).getD j2 0).length = dom.size := by simp
  by_cases hji : j = i
  · subst hji
    rw [getD_set_self _ _ _ (by rw [hbase]; exact hj)]
    rw [if_pos rfl, list_range_map_sum]
    refine Finset.sum_congr rfl ?_
    intro j2 hj2
    have hj2' := Finset.mem_range.mp hj2
    by_cases hj2i : j2 = j
    · simp [hj2i]
    · rw [if_neg hj2i, if_neg hj2i]
      rw [getD_range_map _ _ _ hj2']
      rw [getD_map_lt _ _ _ (by simp [List.length_set]; exact hj2')]
      rw [getD_set_ne _ _ _ _ hj2i, getD_range_map _ _ _ hj2']
  · rw [getD_set_ne _ _ _ _ hji, if_neg hji]
    rw [getD_range_map _ _ _ hj]
    rw [getD_range_map _ _ _ hj]
    rw [getD_map_lt _ _ _ (by simp [List.length_set]; exact hj)]
    rw [getD_set_ne _ _ _ _ hji, getD_range_map _ _ _ hj]

/-- Value of `plain_kzg_com` on a setup-produced key: the single MSM splits into the
`g1`-basis half applied to the first `N` evaluations and the `h`-basis half
applied to the second `N`. -/
lemma plain_kzg_com_eval (domNew : Nat → Option (Dom F)) (g1 g2 h alpha : F) (ml : Nat)
    (ck : CommitmentKey F) (hs : kzg_setup domNew g1 g2 h alpha ml = some ck)
    (evals : List F) (hlen : evals.length = ck.domain.size + ck.domain.size) :
    plain_kzg_com ck evals =
      some (g1 * (∑ i in Finset.range ck.domain.size,
          (ck.domain.lagAt alpha).getD i 0 * evals.getD i 0) +
        h * (∑ i in Finset.range ck.domain.size,
          (ck.domain.lagAt alpha).getD i 0 * evals.getD (ck.domain.size + i) 0)) := by
  obtain ⟨-, -, -, -, -, -, -, hlag, -, -, -⟩ :=
    kzg_setup_inv domNew g1 g2 h alpha ml ck hs
  have hLlen : ck.lagranges.length = ck.domain.size + ck.domain.size := by
    rw [hlag]; simp
  unfold plain_kzg_com
  rw [msm_eq_some _ _ (by rw [hLlen, hlen])]
  congr 1
  rw [hLlen, sum_range_split]
  congr 1
  · rw [Finset.mul_sum]
    refine Finset.sum_congr rfl ?_
    intro i hi
    have hiN := Finset.mem_range.mp hi
    rw [hlag, getD_append_left _ _ _ (by simp; exact hiN), getD_range_map _ _ _ hiN]
    ring
  · rw [Finset.mul_sum]
    refine Finset.sum_congr rfl ?_
    intro i hi
    have hiN := Finset.mem_range.mp hi
    have hfl : ((List.range ck.domain.size).map fun i =>
        g1 * (ck.domain.lagAt alpha).getD i 0).length = ck.domain.size := by simp
    rw [hlag, getD_append_right _ _ _ (by simp), hfl, Nat.add_sub_cancel_left,
      getD_range_map _ _ _ hiN]
    ring

/-- Claim C5: for every setup-produced commitment key and every message
of length at most `message_length`, if `commit` returns (the `z0 ∈ D`
panic does not fire), then `verify_commitment` accepts the commitment —
equivalently, the embedded self-opening satisfies `plain_kzg_verify`. -/
theorem commit_then_verify_commitment
    (env : HashEnv F) (finv : F → F) (fuel : Nat) (domNew : Nat → Option (Dom F))
    (g1 g2 h alpha : F) (ml : Nat) (m : List F) (rng : Nat → F)
    (ck : CommitmentKey F) (com : Commitment F) (st : State F)
    (hs : kzg_setup domNew g1 g2 h alpha ml = some ck)
    (hdc : DomainContract ck.domain finv alpha)
    (hNsize : ck.message_length + 2 ≤ ck.domain.size)
    (hm : m.length ≤ ck.message_length)
    (hcommit : commit env finv fuel ck m rng = some (com, st)) :
    verify_commitment env fuel ck com = some true := by
  obtain ⟨hml1, hg1, hg2, hdomeq, hmleq, hu, huh, hlagr, hg2eq, hr, hdv⟩ :=
    kzg_setup_inv domNew g1 g2 h alpha ml ck hs
  have hNpos : 0 < ck.domain.size := by omega
  unfold commit at hcommit
  dsimp only at hcommit
  set evals : List F := m ++ (List.range (2 * ck.domain.size - m.length)).map rng
    with hevals
  have hevlen : evals.length = ck.domain.size + ck.domain.size := by
    rw [hevals]; simp; omega
  rcases hcom : plain_kzg_com ck evals with _ | ckzg
  · rw [hcom] at hcommit; simp at hcommit
  rw [hcom] at hcommit
  dsimp only at hcommit
  rcases hz : get_z0 env fuel ckzg with _ | z0
  · rw [hz] at hcommit; simp at hcommit
  rw [hz] at hcommit
  dsimp only at hcommit
  by_cases hfind : (find_in_domain ck.domain z0).isSome
  · rw [if_pos hfind] at hcommit; simp at hcommit
  rw [if_neg hfind] at hcommit
  set hat_evals : List F := (evals.drop ck.domain.size).take ck.domain.size with hhat
  set invd : List F := inv_diffs finv ck.domain z0 with hinvd
  set y0 : F := evaluate_outside finv ck.domain evals z0 invd with hy0def
  set hy0 : F := evaluate_outside finv ck.domain hat_evals z0 invd with hhy0def
  set w1 : List F := witness_evals_outside ck.domain evals y0 invd with hw1
  set w2 : List F := witness_evals_outside ck.domain hat_evals hy0 invd with hw2
  rcases hv : plain_kzg_com ck (w1 ++ w2) with _ | v
  · rw [hv] at hcommit; simp at hcommit
  rw [hv] at hcommit
  simp only [Option.some_inj, Prod.mk.injEq] at hcommit
  obtain ⟨hcomeq, hsteq⟩ := hcommit
  subst hcomeq
  -- shorthands
  set N := ck.domain.size with hN
  set x : Nat → F := ck.domain.elem with hx
  set lf : Nat → F := fun i => (ck.domain.lagAt alpha).getD i 0 with hlf
  set e : Nat → F := fun i => evals.getD i 0 with he
  set eh : Nat → F := fun i => evals.getD (N + i) 0 with heh
  -- z0 is outside the domain
  have hnotin : ∀ i < N, x i ≠ z0 :=
    find_in_domain_none ck.domain z0 hdc.vanish (Option.not_isSome_iff_eq_none.mp hfind)
  -- barycentric values of y0 and hy0
  have hy0eq : y0 = ck.domain.zEval z0 * finv ((N : F)) *
      ∑ i in Finset.range N, e i * (-(x i) * finv (x i - z0)) := by
    rw [hy0def, hinvd, evaluate_outside_eq]
  have hhy0eq : hy0 = ck.domain.zEval z0 * finv ((N : F)) *
      ∑ i in Finset.range N, eh i * (-(x i) * finv (x i - z0)) := by
    rw [hhy0def, hinvd, evaluate_outside_eq]
    congr 1
    refine Finset.sum_congr rfl ?_
    intro i hi
    rw [hhat, getD_take_drop _ _ _ (Finset.mem_range.mp hi)]
  -- value of the commitment
  have hckzg : ckzg = g1 * (∑ i in Finset.range N, lf i * e i) +
      h * (∑ i in Finset.range N, lf i * eh i) := by
    have heval := plain_kzg_com_eval domNew g1 g2 h alpha ml ck hs evals hevlen
    rw [hcom] at heval
    exact Option.some_inj.mp heval
  -- value of the self-opening
  have hw1len : w1.length = N := by rw [hw1]; exact witness_evals_outside_length _ _ _ _
  have hveq : v = g1 * (∑ i in Finset.range N, lf i * ((e i - y0) * finv (x i - z0))) +
      h * (∑ i in Finset.range N, lf i * ((eh i - hy0) * finv (x i - z0))) := by
    have hwlen : (w1 ++ w2).length = N + N := by
      rw [List.length_append, hw1, hw2,
        witness_evals_outside_length, witness_evals_outside_length]
    have heval := plain_kzg_com_eval domNew g1 g2 h alpha ml ck hs (w1 ++ w2) hwlen
    rw [hv] at heval
    have hveq0 := Option.some_inj.mp heval
    rw [hveq0]
    congr 1
    · congr 1
      refine Finset.sum_congr rfl ?_
      intro i hi
      have hiN := Finset.mem_range.mp hi
      rw [getD_append_left _ _ _ (by rw [hw1len]; exact hiN)]
      rw [hw1, witness_evals_outside_getD _ _ _ _ _ hiN, hinvd,
        inv_diffs_getD _ _ _ _ hiN]
    · congr 1
      refine Finset.sum_congr rfl ?_
      intro i hi
      have hiN := Finset.mem_range.mp hi
      rw [getD_append_right _ _ _ (by rw [hw1len]; omega), hw1len,
        Nat.add_sub_cancel_left]
      rw [hw2, witness_evals_outside_getD _ _ _ _ _ hiN, hinvd,
        inv_diffs_getD _ _ _ _ hiN]
      rw [hhat, getD_take_drop _ _ _ hiN]
  -- the two opening identities
  have id1 := outside_identity N x lf finv alpha z0 (ck.domain.zEval alpha)
    (ck.domain.zEval z0) e y0 hdc.finv_mul hdc.size_ne hnotin hdc.lag_identity
    hdc.lag_sum (hdc.pole_sum z0 hnotin) hy0eq
  have id2 := outside_identity N x lf finv alpha z0 (ck.domain.zEval alpha)
    (ck.domain.zEval z0) eh hy0 hdc.finv_mul hdc.size_ne hnotin hdc.lag_identity
    hdc.lag_sum (hdc.pole_sum z0 hnotin) hhy0eq
  -- run the verifier
  unfold verify_commitment
  dsimp only
  rw [hz, Option.map_some']
  simp only [Option.some_inj]
  have hu0 : ck.u.getD 0 0 = g1 := by
    rw [hu, getD_range_map _ _ _ hNpos, pow_zero, mul_one]
  have hh0 : ck.hat_u.getD 0 0 = h := by
    rw [huh, getD_range_map _ _ _ hNpos, pow_zero, mul_one]
  unfold plain_kzg_verify pairing
  dsimp only
  rw [decide_eq_true_eq, hu0, hh0, hg2eq, hr, hckzg, hveq]
  linear_combination (-(g2 * g1)) * id1 + (-(g2 * h)) * id2

/-- Witness for C5 at a concrete instance (`ZMod 5`, `N = 4`,
message `[0]`). -/
theorem commit_then_verify_commitment_witness :
    verify_commitment env5 1 ck5 com5 = some true :=
  commit_then_verify_commitment env5 finv5 1 domNew5 1 1 1 0 1 [0] (fun _ => 0)
    ck5 com5 st5 (by rfl)
    ⟨by decide, by decide, by decide, by decide, by decide, by decide, by decide,
      by decide⟩
    (by decide) (by decide) (by rfl)

/-- The state produced by a successful `commit`: the evaluations are the
message followed by the rng stream, and no FK precomputation is present. -/
lemma commit_state_inv (env : HashEnv F) (finv : F → F) (fuel : Nat)
    (ck : CommitmentKey F) (m : List F) (rng : Nat → F) (com : Commitment F)
    (st : State F) (hcommit : commit env finv fuel ck m rng = some (com, st)) :
    st.evals = m ++ (List.range (2 * ck.domain.size - m.length)).map rng ∧
      st.precomputed_v = none := by
  unfold commit at hcommit
  dsimp only at hcommit
  rcases hcom : plain_kzg_com ck
      (m ++ (List.range (2 * ck.domain.size - m.length)).map rng) with _ | ckzg
  · rw [hcom] at hcommit; simp at hcommit
  rw [hcom] at hcommit
  dsimp only at hcommit
  rcases hz : get_z0 env fuel ckzg with _ | z0
  · rw [hz] at hcommit; simp at hcommit
  rw [hz] at hcommit
  dsimp only at hcommit
  by_cases hfind : (find_in_domain ck.domain z0).isSome
  · rw [if_pos hfind] at hcommit; simp at hcommit
  rw [if_neg hfind] at hcommit
  rcases hv : plain_kzg_com ck _ with _ | v
  · rw [hv] at hcommit; simp at hcommit
  rw [hv] at hcommit
  simp only [Option.some_inj, Prod.mk.injEq] at hcommit
  obtain ⟨-, hsteq⟩ := hcommit
  rw [← hsteq]
  exact ⟨rfl, rfl⟩

/-- Claim C7: `verify_commitment` recomputes `z0 = get_z0(com_kzg)` and
returns exactly the truth value of the pairing equation
`e(com - g1*y0 - h*tau0.hat_y, g2) == e(tau0.v, r - g2*z0)` with
`g1 = CK.u[0]`, `h = CK.hat_u[0]`: it returns true iff the two GT
elements are equal. -/
theorem verify_commitment_iff_pairing (env : HashEnv F) (fuel : Nat)
    (ck : CommitmentKey F) (com : Commitment F) (z0 : F)
    (hz : get_z0 env fuel com.com_kzg = some z0) :
    verify_commitment env fuel ck com = some true ↔
      pairing (com.com_kzg - ck.u.getD 0 0 * com.y0 -
          ck.hat_u.getD 0 0 * com.tau0.hat_y) ck.g2 =
        pairing com.tau0.v (ck.r - ck.g2 * z0) := by
  unfold verify_commitment plain_kzg_verify
  rw [hz, Option.map_some']
  dsimp only
  simp only [Option.some_inj]
  exact ⟨fun hb => of_decide_eq_true hb, fun hp => decide_eq_true hp⟩

/-- Witness for C7: a concrete commitment whose pairing equation holds and
which the verifier therefore accepts. -/
theorem verify_commitment_iff_pairing_witness :
    verify_commitment env5 1 ck5 { com_kzg := 0, y0 := 0, tau0 := { hat_y := 0, v := 3 } } =
      some true :=
  (verify_commitment_iff_pairing env5 1 ck5
    { com_kzg := 0, y0 := 0, tau0 := { hat_y := 0, v := 3 } } 0 (by rfl)).mpr (by decide)

/-- Claim C8: on an honest state produced by `commit`, `open` returns
`none` exactly when `i ≥ message_length`, and for `i < message_length` it
returns an opening whose `hat_y` is `state.evals[domain.size() + i]`. -/
theorem open_none_iff_out_of_range (env : HashEnv F) (finv : F → F) (fuel : Nat)
    (domNew : Nat → Option (Dom F)) (g1 g2 h alpha : F) (ml : Nat) (m : List F)
    (rng : Nat → F) (ck : CommitmentKey F) (com : Commitment F) (st : State F)
    (hs : kzg_setup domNew g1 g2 h alpha ml = some ck)
    (hNsize : ck.message_length + 2 ≤ ck.domain.size)
    (hm : m.length ≤ ck.message_length)
    (hcommit : commit env finv fuel ck m rng = some (com, st)) (i : Nat) :
    (vc_open finv ck st i = none ↔ ck.message_length ≤ i) ∧
      ∀ op : Opening F, vc_open finv ck st i = some op →
        op.hat_y = st.evals.getD (ck.domain.size + i) 0 := by
  obtain ⟨hml1, hg1, hg2, hdomeq, hmleq, hu, huh, hlagr, hg2eq, hr, hdv⟩ :=
    kzg_setup_inv domNew g1 g2 h alpha ml ck hs
  obtain ⟨hstev, hstpre⟩ := commit_state_inv env finv fuel ck m rng com st hcommit
  have hevlen : st.evals.length = ck.domain.size + ck.domain.size := by
    rw [hstev]; simp; omega
  by_cases hile : ck.message_length ≤ i
  · refine ⟨⟨fun _ => hile, fun hge => ?_⟩, fun op hop => ?_⟩
    · unfold vc_open; rw [if_pos hile]
    · unfold vc_open at hop; rw [if_pos hile] at hop; exact absurd hop (by simp)
  · push_neg at hile
    have hlaglen : ck.lagranges.length = ck.domain.size + ck.domain.size := by
      rw [hlagr]; simp
    set wits : List F := witness_evals_inside finv ck.domain st.evals i ++
      witness_evals_inside finv ck.domain
        ((st.evals.drop ck.domain.size).take ck.domain.size) i with hwits
    obtain ⟨S, hS⟩ : ∃ S, msm ck.lagranges wits = some S :=
      ⟨_, msm_eq_some _ _ (by
        rw [hlaglen, hwits, List.length_append, witness_evals_inside_length,
          witness_evals_inside_length])⟩
    have hidx : i + ck.domain.size < st.evals.length := by omega
    have hget : st.evals.get? (i + ck.domain.size) =
        some (st.evals.getD (i + ck.domain.size) 0) := by
      simp [List.get?_eq_getElem?, List.getElem?_eq_getElem hidx,
        List.getD_eq_getElem?_getD]
    have hopen_eq : vc_open finv ck st i =
        some { hat_y := st.evals.getD (i + ck.domain.size) 0, v := S } := by
      unfold vc_open plain_kzg_com
      rw [if_neg (not_le.mpr hile), hstpre]
      dsimp only
      rw [← hwits, hS]
      dsimp only
      rw [hget, Option.map_some']
    refine ⟨⟨fun hnone => ?_, fun hge => absurd hge (not_le.mpr hile)⟩, fun op hop => ?_⟩
    · rw [hopen_eq] at hnone; exact absurd hnone (by simp)
    · rw [hopen_eq] at hop
      have hopeq := Option.some_inj.mp hop
      rw [← hopeq]
      rw [Nat.add_comm]

/-- Witness for C8 at the concrete instance: in range (`i = 0`) the
opening exists and exposes the masking evaluation; out of range (`i = 1`)
`open` returns `none`. -/
theorem open_none_iff_out_of_range_witness :
    ((vc_open finv5 ck5 st5 0 = none ↔ ck5.message_length ≤ 0) ∧
      ∀ op : Opening (ZMod 5), vc_open finv5 ck5 st5 0 = some op →
        op.hat_y = st5.evals.getD (ck5.domain.size + 0) 0) ∧
    ((vc_open finv5 ck5 st5 1 = none ↔ ck5.message_length ≤ 1) ∧
      ∀ op : Opening (ZMod 5), vc_open finv5 ck5 st5 1 = some op →
        op.hat_y = st5.evals.getD (ck5.domain.size + 1) 0) :=
  ⟨open_none_iff_out_of_range env5 finv5 1 domNew5 1 1 1 0 1 [0] (fun _ => 0)
      ck5 com5 st5 (by rfl) (by decide) (by decide) (by rfl) 0,
    open_none_iff_out_of_range env5 finv5 1 domNew5 1 1 1 0 1 [0] (fun _ => 0)
      ck5 com5 st5 (by rfl) (by decide) (by decide) (by rfl) 1⟩

lemma getD_map_of_lt {α : Type} (f : α → F) (l : List α) (j : Nat) (d : α)
    (h : j < l.length) : (l.map f).getD j 0 = f (l.getD j d) := by
  simp [List.getD_eq_getElem?_getD, List.getElem?_map, List.getElem?_eq_getElem h]

lemma zip_map_sum_general {α β : Type} (f : α → F) (g : β → F) (d1 : α) (d2 : β) :
    ∀ (l1 : List α) (l2 : List β), l1.length = l2.length →
      ((l1.zip l2).map fun p => f p.1 * g p.2).sum =
        ∑ j in Finset.range l1.length, f (l1.getD j d1) * g (l2.getD j d2) := by
  intro l1
  induction l1 with
  | nil => intro l2 _; simp
  | cons a l ih =>
    intro l2 hlen
    cases l2 with
    | nil => simp at hlen
    | cons b l2 =>
      simp only [List.zip_cons_cons, List.map_cons, List.sum_cons, List.length_cons]
      rw [Finset.sum_range_succ']
      simp only [List.getD_cons_succ, List.getD_cons_zero]
      rw [ih l2 (by simpa using hlen)]
      ring

/-- Correctness of a single honest opening: for a state produced by
`commit` and an in-range index, the opening returned by `open` satisfies
the (exponent-model) KZG equation
`com - g1*f(x_i) - h*hat_y = (alpha - x_i) * v`. -/
lemma open_correct (env : HashEnv F) (finv : F → F) (fuel : Nat)
    (domNew : Nat → Option (Dom F)) (g1 g2 h alpha : F) (ml : Nat) (m : List F)
    (rng : Nat → F) (ck : CommitmentKey F) (com : Commitment F) (st : State F)
    (i : Nat) (op : Opening F)
    (hs : kzg_setup domNew g1 g2 h alpha ml = some ck)
    (hdc : DomainContract ck.domain finv alpha)
    (hNsize : ck.message_length + 2 ≤ ck.domain.size)
    (hm : m.length ≤ ck.message_length)
    (hcommit : commit env finv fuel ck m rng = some (com, st))
    (hi : i < ck.message_length)
    (hopen : vc_open finv ck st i = some op) :
    com.com_kzg - g1 * st.evals.getD i 0 - h * op.hat_y =
      (alpha - ck.domain.elem i) * op.v := by
  obtain ⟨hml1, hg1, hg2, hdomeq, hmleq, hu, huh, hlagr, hg2eq, hr, hdv⟩ :=
    kzg_setup_inv domNew g1 g2 h alpha ml ck hs
  have hNpos : 0 < ck.domain.size := by omega
  have hiN : i < ck.domain.size := by omega
  -- destructure the commit run
  unfold commit at hcommit
  dsimp only at hcommit
  set evals : List F := m ++ (List.range (2 * ck.domain.size - m.length)).map rng
    with hevals
  have hevlen : evals.length = ck.domain.size + ck.domain.size := by
    rw [hevals]; simp; omega
  rcases hcom : plain_kzg_com ck evals with _ | ckzg
  · rw [hcom] at hcommit; simp at hcommit
  rw [hcom] at hcommit
  dsimp only at hcommit
  rcases hz : get_z0 env fuel ckzg with _ | z0
  · rw [hz] at hcommit; simp at hcommit
  rw [hz] at hcommit
  dsimp only at hcommit
  by_cases hfind : (find_in_domain ck.domain z0).isSome
  · rw [if_pos hfind] at hcommit; simp at hcommit
  rw [if_neg hfind] at hcommit
  rcases hv : plain_kzg_com ck _ with _ | v0
  · rw [hv] at hcommit; simp at hcommit
  rw [hv] at hcommit
  simp only [Option.some_inj, Prod.mk.injEq] at hcommit
  obtain ⟨hcomeq, hsteq⟩ := hcommit
  subst hcomeq
  subst hsteq
  -- shorthands
  set N := ck.domain.size with hN
  set x : Nat → F := ck.domain.elem with hx
  set lf : Nat → F := fun j => (ck.domain.lagAt alpha).getD j 0 with hlf
  set e : Nat → F := fun j => evals.getD j 0 with he
  set eh : Nat → F := fun j => evals.getD (N + j) 0 with heh
  -- value of the commitment
  have hckzg : ckzg = g1 * (∑ j in Finset.range N, lf j * e j) +
      h * (∑ j in Finset.range N, lf j * eh j) := by
    have heval := plain_kzg_com_eval domNew g1 g2 h alpha ml ck hs evals hevlen
    rw [hcom] at heval
    exact Option.some_inj.mp heval
  -- destructure the open run
  unfold vc_open at hopen
  rw [if_neg (not_le.mpr hi)] at hopen
  dsimp only at hopen
  set w1 : List F := witness_evals_inside finv ck.domain evals i with hw1
  set w2 : List F :=
    witness_evals_inside finv ck.domain ((evals.drop N).take N) i with hw2
  have hwlen : (w1 ++ w2).length = N + N := by
    rw [List.length_append, hw1, hw2, witness_evals_inside_length,
      witness_evals_inside_length]
  have heval2 := plain_kzg_com_eval domNew g1 g2 h alpha ml ck hs (w1 ++ w2) hwlen
  rw [heval2] at hopen
  dsimp only at hopen
  have hidx : i + N < evals.length := by omega
  have hget : evals.get? (i + N) = some (evals.getD (i + N) 0) := by
    simp [List.get?_eq_getElem?, List.getElem?_eq_getElem hidx,
      List.getD_eq_getElem?_getD]
  rw [hget, Option.map_some'] at hopen
  have hopeq := Option.some_inj.mp hopen
  subst hopeq
  dsimp only
  -- rewrite the two witness sums into the inside-identity form
  have hw1len : w1.length = N := by rw [hw1]; exact witness_evals_inside_length _ _ _ _
  have hC : (∑ j in Finset.range N, lf j * (w1 ++ w2).getD j 0) =
      ∑ j in Finset.range N, lf j * (if j = i
        then ∑ j2 in Finset.range N, (if j2 = i then 0
          else (e j2 - e i) * (-(finv (x j2 - x i))) * x ((j2 + N - i) % N))
        else (e j - e i) * finv (x j - x i)) := by
    refine Finset.sum_congr rfl ?_
    intro j hj
    have hjN := Finset.mem_range.mp hj
    rw [getD_append_left _ _ _ (by rw [hw1len]; exact hjN), hw1,
      witness_evals_inside_getD finv ck.domain evals i j hiN hjN]
  have hD : (∑ j in Finset.range N, lf j * (w1 ++ w2).getD (N + j) 0) =
      ∑ j in Finset.range N, lf j * (if j = i
        then ∑ j2 in Finset.range N, (if j2 = i then 0
          else (eh j2 - eh i) * (-(finv (x j2 - x i))) * x ((j2 + N - i) % N))
        else (eh j - eh i) * finv (x j - x i)) := by
    refine Finset.sum_congr rfl ?_
    intro j hj
    have hjN := Finset.mem_range.mp hj
    rw [getD_append_right _ _ _ (by rw [hw1len]; omega), hw1len,
      Nat.add_sub_cancel_left, hw2,
      witness_evals_inside_getD finv ck.domain _ i j hiN hjN]
    by_cases hji : j = i
    · rw [if_pos hji, if_pos hji]
      congr 1
      refine Finset.sum_congr rfl ?_
      intro j2 hj2
      have hj2N := Finset.mem_range.mp hj2
      by_cases hj2i : j2 = i
      · rw [if_pos hj2i, if_pos hj2i]
      · rw [if_neg hj2i, if_neg hj2i,
          getD_take_drop _ _ _ hj2N, getD_take_drop _ _ _ hiN]
    · rw [if_neg hji, if_neg hji,
        getD_take_drop _ _ _ hjN, getD_take_drop _ _ _ hiN]
  rw [hckzg, hC, hD]
  -- the two inside identities
  have hdist1 : ∀ j < N, j ≠ i → x j ≠ x i := fun j hj hne =>
    hdc.distinct j hj i hiN hne
  have idA := inside_identity N x lf finv alpha (ck.domain.zEval alpha) e i hiN
    hdc.finv_mul hdc.size_ne hdc.lag_identity hdc.lag_sum hdc.cyc hdist1
  have idB := inside_identity N x lf finv alpha (ck.domain.zEval alpha) eh i hiN
    hdc.finv_mul hdc.size_ne hdc.lag_identity hdc.lag_sum hdc.cyc hdist1
  have hehadd : evals.getD (i + N) 0 = eh i := by rw [heh, Nat.add_comm]
  have headd : evals.getD i 0 = e i := rfl
  rw [hehadd, headd]
  linear_combination (-g1) * idA + (-h) * idB

/-- Claim C6: any `L ≥ 1` honest commit/open pairs at a common in-range
index `i`, with `mis[j]` the committed value at position `i`, aggregate to
an opening that `verify` accepts. -/
theorem aggregate_then_verify (env : HashEnv F) (finv : F → F) (fuel fuelC : Nat)
    (domNew : Nat → Option (Dom F)) (g1 g2 h alpha : F) (ml : Nat)
    (ck : CommitmentKey F)
    (hs : kzg_setup domNew g1 g2 h alpha ml = some ck)
    (hdc : DomainContract ck.domain finv alpha)
    (hNsize : ck.message_length + 2 ≤ ck.domain.size)
    (i : Nat) (hi : i < ck.message_length)
    (L : Nat) (hL : 1 ≤ L)
    (mis : List F) (coms : List (Commitment F)) (openings : List (Opening F))
    (hmis : mis.length = L) (hcoms : coms.length = L) (hops : openings.length = L)
    (chi : F) (hchi : get_chi env fuelC i mis coms = some chi)
    (hhonest : ∀ j < L, ∃ (m : List F) (rng : Nat → F) (st : State F),
      m.length ≤ ck.message_length ∧
      commit env finv fuel ck m rng = some (coms.getD j defaultCommitment, st) ∧
      mis.getD j 0 = st.evals.getD i 0 ∧
      vc_open finv ck st i = some (openings.getD j defaultOpening)) :
    ∃ agg : Opening F, aggregate env fuelC ck i mis coms openings = some agg ∧
      vc_verify env fuelC ck i mis coms agg = some true := by
  obtain ⟨hml1, hg1, hg2, hdomeq, hmleq, hu, huh, hlagr, hg2eq, hr, hdv⟩ :=
    kzg_setup_inv domNew g1 g2 h alpha ml ck hs
  have hNpos : 0 < ck.domain.size := by omega
  have hLpos : ¬ mis.length < 1 := by omega
  have him : i < ml := by omega
  -- the per-party opening identities
  have hparty : ∀ j < L, (coms.getD j defaultCommitment).com_kzg - g1 * mis.getD j 0 -
      h * (openings.getD j defaultOpening).hat_y =
      (alpha - ck.domain.elem i) * (openings.getD j defaultOpening).v := by
    intro j hj
    obtain ⟨m, rng, st, hm, hcommit, hmieq, hopen⟩ := hhonest j hj
    rw [hmieq]
    exact open_correct env finv fuel domNew g1 g2 h alpha ml m rng ck _ st i _
      hs hdc hNsize hm hcommit hi hopen
  -- powers of chi
  set cp : List F := (List.range mis.length).map fun j => chi ^ j with hcp
  have hcplen : cp.length = L := by rw [hcp]; simp [hmis]
  have hcpget : ∀ j < L, cp.getD j 0 = chi ^ j := by
    intro j hj
    rw [hcp]
    exact getD_range_map _ _ _ (by rw [hmis]; exact hj)
  -- the aggregated pieces
  have hvs : msm (openings.map fun o => o.v) cp =
      some (∑ j in Finset.range L, (openings.getD j defaultOpening).v * chi ^ j) := by
    rw [msm_eq_some _ _ (by simp [hops, hcplen])]
    congr 1
    rw [show (openings.map fun o => o.v).length = L from by simp [hops]]
    refine Finset.sum_congr rfl ?_
    intro j hj
    have hjL := Finset.mem_range.mp hj
    rw [getD_map_of_lt _ _ _ defaultOpening (by simpa [hops] using hjL), hcpget j hjL]
  have hhy : ((openings.zip cp).map fun p => p.1.hat_y * p.2).sum =
      ∑ j in Finset.range L, (openings.getD j defaultOpening).hat_y * chi ^ j := by
    have h0 := zip_map_sum_general (fun o : Opening F => o.hat_y) (fun c : F => c)
      defaultOpening 0 openings cp (by rw [hops, hcplen])
    simp only at h0
    rw [h0, hops]
    refine Finset.sum_congr rfl ?_
    intro j hj
    rw [hcpget j (Finset.mem_range.mp hj)]
  have hcs : msm (coms.map fun c => c.com_kzg) cp =
      some (∑ j in Finset.range L,
        (coms.getD j defaultCommitment).com_kzg * chi ^ j) := by
    rw [msm_eq_some _ _ (by simp [hcoms, hcplen])]
    congr 1
    rw [show (coms.map fun c => c.com_kzg).length = L from by simp [hcoms]]
    refine Finset.sum_congr rfl ?_
    intro j hj
    have hjL := Finset.mem_range.mp hj
    rw [getD_map_of_lt _ _ _ defaultCommitment (by simpa [hcoms] using hjL),
      hcpget j hjL]
  have hmival : ((mis.zip cp).map fun p => p.1 * p.2).sum =
      ∑ j in Finset.range L, mis.getD j 0 * chi ^ j := by
    rw [zip_map_sum mis cp (by rw [hmis, hcplen]), hmis]
    refine Finset.sum_congr rfl ?_
    intro j hj
    rw [hcpget j (Finset.mem_range.mp hj)]
  have hdget : ck.d.get? i = some (g2 * (alpha - ck.domain.elem i)) := by
    rw [hdv]
    simp [List.get?_eq_getElem?, List.getElem?_map, List.getElem?_range, him]
  have hu0 : ck.u.getD 0 0 = g1 := by
    rw [hu, getD_range_map _ _ _ hNpos, pow_zero, mul_one]
  have hh0 : ck.hat_u.getD 0 0 = h := by
    rw [huh, getD_range_map _ _ _ hNpos, pow_zero, mul_one]
  -- the aggregated identity
  have key : (∑ j in Finset.range L, (coms.getD j defaultCommitment).com_kzg * chi ^ j) -
      g1 * ∑ j in Finset.range L, mis.getD j 0 * chi ^ j -
      h * ∑ j in Finset.range L, (openings.getD j defaultOpening).hat_y * chi ^ j =
      (alpha - ck.domain.elem i) *
        ∑ j in Finset.range L, (openings.getD j defaultOpening).v * chi ^ j := by
    rw [Finset.mul_sum, Finset.mul_sum, Finset.mul_sum,
      ← Finset.sum_sub_distrib, ← Finset.sum_sub_distrib]
    refine Finset.sum_congr rfl ?_
    intro j hj
    have hp := hparty j (Finset.mem_range.mp hj)
    linear_combination chi ^ j * hp
  refine ⟨⟨((openings.zip cp).map (fun p => p.1.hat_y * p.2)).sum,
      ∑ j in Finset.range L, (openings.getD j defaultOpening).v * chi ^ j⟩,
    ?_, ?_⟩
  · unfold aggregate
    rw [if_neg hLpos, hchi]
    dsimp only
    rw [← hcp, hvs]
  · unfold vc_verify
    rw [if_neg hLpos, hchi]
    dsimp only
    rw [← hcp, hcs]
    dsimp only
    unfold plain_kzg_verify_inside pairing
    rw [hdget, Option.map_some']
    dsimp only
    simp only [Option.some_inj]
    rw [decide_eq_true_eq, hmival, hhy, hu0, hh0, hg2eq]
    linear_combination g2 * key

/-! ### Loop characterizations for the challenge derivations -/

lemma get_z0_from_spec (env : HashEnv F) (comSer : List Nat) :
    ∀ fuel cnt z, get_z0_from env comSer fuel cnt = some z →
      ∃ c, cnt < c ∧
        env.fromRandomBytes (env.sha256 (get_z0_input comSer c)) = some z ∧
        ∀ c', cnt < c' → c' < c →
          env.fromRandomBytes (env.sha256 (get_z0_input comSer c')) = none := by
  intro fuel
  induction fuel with
  | zero => intro cnt z h; simp [get_z0_from] at h
  | succ fuel ih =>
    intro cnt z h
    unfold get_z0_from at h
    rcases hx : env.fromRandomBytes (env.sha256 (get_z0_input comSer (cnt + 1))) with _ | x
    · rw [hx] at h
      rcases ih (cnt + 1) z h with ⟨c, hc1, hc2, hc3⟩
      refine ⟨c, by omega, hc2, ?_⟩
      intro c' h1 h2
      rcases Nat.eq_or_lt_of_le h1 with he | hl
      · subst he; exact hx
      · exact hc3 c' hl h2
    · rw [hx] at h
      simp at h
      exact ⟨cnt + 1, Nat.lt_succ_self cnt, by rw [hx, h], by intro c' h1 h2; omega⟩

lemma get_chi_from_spec (env : HashEnv F) (i : Nat) (mis : List F)
    (coms : List (Commitment F)) :
    ∀ fuel cnt z, get_chi_from env i mis coms fuel cnt = some z →
      ∃ c, cnt < c ∧
        env.fromRandomBytes (env.sha256 (get_chi_input env i mis coms c)) = some z ∧
        ∀ c', cnt < c' → c' < c →
          env.fromRandomBytes (env.sha256 (get_chi_input env i mis coms c')) = none := by
  intro fuel
  induction fuel with
  | zero => intro cnt z h; simp [get_chi_from] at h
  | succ fuel ih =>
    intro cnt z h
    unfold get_chi_from at h
    rcases hx : env.fromRandomBytes (env.sha256 (get_chi_input env i mis coms (cnt + 1))) with _ | x
    · rw [hx] at h
      rcases ih (cnt + 1) z h with ⟨c, hc1, hc2, hc3⟩
      refine ⟨c, by omega, hc2, ?_⟩
      intro c' h1 h2
      rcases Nat.eq_or_lt_of_le h1 with he | hl
      · subst he; exact hx
      · exact hc3 c' hl h2
    · rw [hx] at h
      simp at h
      exact ⟨cnt + 1, Nat.lt_succ_self cnt, by rw [hx, h], by intro c' h1 h2; omega⟩

/-! ### Claims C9 and C10 -/

/-- Claim C9, counterexample: the byte stream `get_z0` actually feeds to
SHA-256 appends the counter little-endian (`i.to_le_bytes()`), not
big-endian as the claim states; already at the first counter value 1 the
two streams differ, and a `get_z0` run against an oracle that recognizes
the big-endian stream confirms the code hashes the little-endian one. -/
theorem get_z0_counter_not_be :
    get_z0_input [] 1 ≠ get_z0_input_be [] 1 ∧
      get_z0
        { sha256 := fun l => l
          fromRandomBytes := fun bs => if bs = get_z0_input_be [] 1 then some 1 else some 0
          serG1 := fun _ => []
          serF := fun _ => []
          serCom := fun _ => [] : HashEnv (ZMod 5)} 1 0 = some 0 := by
  constructor
  · decide
  · decide

/-- Claim C9 (amended): the rejection-sampling counters of `get_z0` and
`get_chi` are hashed as 64-bit little-endian byte strings; the streams
are the domain separator, the uncompressed serialization(s), and the
counter (for `get_chi`: separator, counter little-endian, `i` as 4-byte
big-endian, then the serialized pairs), the counter starting at 1. -/
theorem challenge_hash_byte_streams (env : HashEnv F) (fuelZ fuelC : Nat) (com : F)
    (i : Nat) (mis : List F) (coms : List (Commitment F)) (z chi : F)
    (hz : get_z0 env fuelZ com = some z)
    (hchi : get_chi env fuelC i mis coms = some chi) :
    (∃ c, 1 ≤ c ∧
      env.fromRandomBytes (env.sha256
        (strBytes "KZG-SIM-EXT//" ++ env.serG1 com ++ le64 c)) = some z ∧
      ∀ c', 1 ≤ c' → c' < c →
        env.fromRandomBytes (env.sha256
          (strBytes "KZG-SIM-EXT//" ++ env.serG1 com ++ le64 c')) = none) ∧
    (∃ c, 1 ≤ c ∧
      env.fromRandomBytes (env.sha256
        (strBytes "KZG-AGG//" ++ le64 c ++ be32 i ++ get_chi_pairs env mis coms)) =
          some chi ∧
      ∀ c', 1 ≤ c' → c' < c →
        env.fromRandomBytes (env.sha256
          (strBytes "KZG-AGG//" ++ le64 c' ++ be32 i ++ get_chi_pairs env mis coms)) =
            none) := by
  constructor
  · rcases get_z0_from_spec env (env.serG1 com) fuelZ 0 z hz with ⟨c, hc1, hc2, hc3⟩
    exact ⟨c, hc1, hc2, fun c' h1 h2 => hc3 c' h1 h2⟩
  · rcases get_chi_from_spec env i mis coms fuelC 0 chi hchi with ⟨c, hc1, hc2, hc3⟩
    exact ⟨c, hc1, hc2, fun c' h1 h2 => hc3 c' h1 h2⟩

/-- Witness for the amended C9 at a concrete input. -/
theorem challenge_hash_byte_streams_witness :
    ∃ c, 1 ≤ c ∧
      env5.fromRandomBytes (env5.sha256
        (strBytes "KZG-SIM-EXT//" ++ env5.serG1 0 ++ le64 c)) = some 0 := by
  rcases challenge_hash_byte_streams env5 1 1 0 0 [] [] 0 0 (by decide) (by decide) with
    ⟨⟨c, hc1, hc2, _⟩, _⟩
  exact ⟨c, hc1, hc2⟩

/-- Claim C10: `get_ticket` ignores the lottery seed, the party id and
the public key — any two calls that agree on `(par, i, sk)` return the
same result, namely the commitment opening `open(par.ck, sk.state, i)`. -/
theorem get_ticket_independent (finv : F → F) (par : Parameters F) (i : Nat)
    (sk : SecretKey F) (lseed1 lseed2 : List Nat) (pid1 pid2 : Nat)
    (pk1 pk2 : PublicKey F) :
    get_ticket finv par i lseed1 pid1 sk pk1 = get_ticket finv par i lseed2 pid2 sk pk2 ∧
      get_ticket finv par i lseed1 pid1 sk pk1 =
        (vc_open finv par.ck sk.state i).map (fun tau => { opening := tau }) :=
  ⟨rfl, rfl⟩

/-- Witness for C6 at the concrete instance: a single honest party
(`L = 1`, `i = 0`). -/
theorem aggregate_then_verify_witness :
    ∃ agg : Opening (ZMod 5),
      aggregate env5 1 ck5 0 [0] [com5] [⟨0, 0⟩] = some agg ∧
        vc_verify env5 1 ck5 0 [0] [com5] agg = some true :=
  aggregate_then_verify env5 finv5 1 1 domNew5 1 1 1 0 1 ck5 (by rfl)
    ⟨by decide, by decide, by decide, by decide, by decide, by decide, by decide,
      by decide⟩
    (by decide) 0 (by decide) 1 (by decide) [0] [com5] [⟨0, 0⟩] rfl rfl rfl 0 (by rfl)
    (by
      intro j hj
      have hj0 : j = 0 := by omega
      subst hj0
      exact ⟨[0], fun _ => 0, st5, by decide, by rfl, by decide, by rfl⟩)

/-! ### Claims C1 and C2: the participate comparison bug -/

/-- Claim C1 (code bug): the source's `participate` evaluates
`i <= sk.v.len() && sk.v[i] != x` instead of the specified (and
comment-documented) `i < sk.v.len() && sk.v[i] == x`.  At the concrete
honest input below the challenge is `x = 0` and `sk.v = [0]`, so the
claimed predicate is true at `i = 0` yet the code returns `false`; and at
`i = sk.v.len() = 1` the claimed value is `false` but the code panics
(models as `none`) on the out-of-bounds index that `<=` permits. -/
theorem participate_contradicts_spec :
    get_challenge env5 0 (⟨com5⟩ : PublicKey (ZMod 5)) 0 0 (List.replicate 32 0) =
      some 0 ∧
    participate env5 ⟨ck5, 1, 1, 0⟩ 0 (List.replicate 32 0) 0 ⟨[0], st5⟩ ⟨com5⟩ =
      some false ∧
    participate_claimed 0 (⟨[0], st5⟩ : SecretKey (ZMod 5)) 0 = true ∧
    participate env5 ⟨ck5, 1, 1, 0⟩ 1 (List.replicate 32 0) 0 ⟨[0], st5⟩ ⟨com5⟩ =
      none := by
  refine ⟨by decide, by decide, by decide, by decide⟩

/-- Claim C2 (code bug): with `k = 1` (`log_k = 0`) the honest secret
vector is all-zero and every challenge is `0`, so the specified
`participate` returns `true` — but the source's inverted comparison
returns `false` (the in-source test `_lottery_test_always_winning`
asserts `true`).  The chain below is a full honest run: setup with
`k = 1`, key generation, then participation in lottery `i = 0`. -/
theorem always_winning_fails_in_code :
    lottery_setup domNew5 1 1 1 0 1 1 = some ⟨ck5, 1, 1, 0⟩ ∧
    (∀ samples : Nat → Nat, get_random_field_vec samples 1 1 = ([0] : List (ZMod 5))) ∧
    lottery_gen env5 finv5 1 ⟨ck5, 1, 1, 0⟩ (fun _ => 0) (fun _ => 0) =
      some (⟨com5⟩, ⟨[0], st5⟩) ∧
    participate env5 ⟨ck5, 1, 1, 0⟩ 0 (List.replicate 32 0) 0 ⟨[0], st5⟩ ⟨com5⟩ =
      some false ∧
    participate_claimed 0 (⟨[0], st5⟩ : SecretKey (ZMod 5)) 0 = true := by
  refine ⟨by rfl, ?_, by rfl, by decide, by decide⟩
  intro samples
  unfold get_random_field_vec
  simp [Nat.mod_one]

/-! ### Claim C4: setup parameter validation -/

lemma countP_congr_list {α : Type} (l : List α) (p q : α → Bool)
    (h : ∀ a ∈ l, p a = q a) : l.countP p = l.countP q := by
  induction l with
  | nil => rfl
  | cons a l ih =>
    rw [List.countP_cons, List.countP_cons, h a (by simp),
      ih (fun b hb => h b (by simp [hb]))]

lemma countP_range_le (L n : Nat) :
    (List.range n).countP (fun b => decide (b ≤ L)) = min (L + 1) n := by
  induction n with
  | zero => simp
  | succ n ih =>
    rw [List.range_succ, List.countP_append, ih]
    simp only [List.countP_cons, List.countP_nil]
    by_cases hn : n ≤ L
    · simp [hn]; omega
    · simp [hn]; omega

lemma log2_le_31 (k : Nat) (h1 : 1 ≤ k) (h2 : k < 2 ^ 32) : Nat.log 2 k ≤ 31 := by
  by_contra hc
  push_neg at hc
  have hp := Nat.pow_log_le_self 2 (show k ≠ 0 by omega)
  have h32 : (2 : Nat) ^ 32 ≤ 2 ^ Nat.log 2 k :=
    Nat.pow_le_pow_right (by norm_num) (by omega)
  exact absurd h2 (not_lt.mpr (le_trans h32 hp))

lemma u32_leading_zeros_eq (k : Nat) (h1 : 1 ≤ k) (h2 : k < 2 ^ 32) :
    u32_leading_zeros k = 31 - Nat.log 2 k := by
  unfold u32_leading_zeros
  have hlog31 := log2_le_31 k h1 h2
  have hpred : ∀ b ∈ List.range 32,
      (fun b => decide (2 ^ b ≤ k)) b = (fun b => decide (b ≤ Nat.log 2 k)) b := by
    intro b _
    simp only [decide_eq_decide]
    exact Nat.pow_le_iff_le_log (by norm_num) (by omega)
  rw [countP_congr_list _ _ _ hpred, countP_range_le,
    min_eq_left (by omega : Nat.log 2 k + 1 ≤ 32)]
  omega

lemma u32_sub_of_le (a b : Nat) (hba : b ≤ a) (ha : a < 2 ^ 32) : u32_sub a b = a - b := by
  unfold u32_sub
  rw [show a + 2 ^ 32 - b = (a - b) + 2 ^ 32 from by omega, Nat.add_mod_right,
    Nat.mod_eq_of_lt (by omega)]

lemma u32_shl_one (b : Nat) (hb : b < 32) : u32_shl 1 b = 2 ^ b := by
  unfold u32_shl
  rw [Nat.mod_eq_of_lt hb, Nat.shiftLeft_eq, one_mul,
    Nat.mod_eq_of_lt (Nat.pow_lt_pow_right (by norm_num) hb)]

lemma u32_log_k_eq (k : Nat) (h1 : 1 ≤ k) (h2 : k < 2 ^ 32) :
    u32_sub (u32_sub 32 (u32_leading_zeros k)) 1 = Nat.log 2 k := by
  have hlog31 := log2_le_31 k h1 h2
  have hlz := u32_leading_zeros_eq k h1 h2
  have hs1 : u32_sub 32 (u32_leading_zeros k) = Nat.log 2 k + 1 := by
    rw [hlz, u32_sub_of_le _ _ (by omega) (by norm_num)]
    omega
  rw [hs1, u32_sub_of_le _ _ (by omega) (by omega)]
  omega

/-- Claim C4: the lottery `setup` returns `none` (without panicking, in
the release wrapping semantics modelled here) whenever `num_lotteries <
1`, or `k` is not a power of two (including `k = 0`), or `log2 k > 256`;
and whenever it returns `some par`, the parameters satisfy
`par.k = 2 ^ par.log_k`. -/
theorem lottery_setup_validates (domNew : Nat → Option (Dom F)) (g1 g2 h alpha : F)
    (T k : Nat) (hk : k < 2 ^ 32) :
    ((T < 1 ∨ (¬ ∃ e2 : Nat, k = 2 ^ e2) ∨ 256 < Nat.log 2 k) →
      lottery_setup domNew g1 g2 h alpha T k = none) ∧
    (∀ par : Parameters F, lottery_setup domNew g1 g2 h alpha T k = some par →
      par.k = 2 ^ par.log_k) := by
  constructor
  · intro hbad
    unfold lottery_setup
    dsimp only
    by_cases hk0 : k = 0
    · subst hk0
      rw [if_pos (Or.inr (by decide))]
    · have h1k : 1 ≤ k := by omega
      have hs2 := u32_log_k_eq k h1k hk
      have hlog31 := log2_le_31 k h1k hk
      rcases hbad with hT | hnp | hlarge
      · by_cases hguard : (u32_shl 1 (u32_sub (u32_sub 32 (u32_leading_zeros k)) 1) ≠ k ∨
            u32_sub (u32_sub 32 (u32_leading_zeros k)) 1 > 256)
        · rw [if_pos hguard]
        · rw [if_neg hguard]
          have hkzg : kzg_setup domNew g1 g2 h alpha T = (none : Option (CommitmentKey F)) := by
            unfold kzg_setup
            rw [if_pos hT]
          rw [hkzg]
          rfl
      · have hne : 2 ^ Nat.log 2 k ≠ k := fun he => hnp ⟨Nat.log 2 k, he.symm⟩
        rw [if_pos (Or.inl (by rw [hs2, u32_shl_one _ (by omega)]; exact hne))]
      · exfalso
        have hp := Nat.pow_log_le_self 2 (show k ≠ 0 by omega)
        have h32 : (2 : Nat) ^ 32 ≤ 2 ^ Nat.log 2 k :=
          Nat.pow_le_pow_right (by norm_num) (by omega)
        exact absurd hk (not_lt.mpr (le_trans h32 hp))
  · intro par hsome
    unfold lottery_setup at hsome
    dsimp only at hsome
    by_cases hguard : (u32_shl 1 (u32_sub (u32_sub 32 (u32_leading_zeros k)) 1) ≠ k ∨
        u32_sub (u32_sub 32 (u32_leading_zeros k)) 1 > 256)
    · rw [if_pos hguard] at hsome
      exact absurd hsome (by simp)
    · rw [if_neg hguard] at hsome
      push_neg at hguard
      obtain ⟨heq, hle⟩ := hguard
      by_cases hk0 : k = 0
      · exfalso
        subst hk0
        have hbig : u32_sub (u32_sub 32 (u32_leading_zeros 0)) 1 > 256 := by decide
        omega
      · have h1k : 1 ≤ k := by omega
        have hs2 := u32_log_k_eq k h1k hk
        have hlog31 := log2_le_31 k h1k hk
        have hshl : u32_shl 1 (u32_sub (u32_sub 32 (u32_leading_zeros k)) 1) =
            2 ^ Nat.log 2 k := by
          rw [hs2, u32_shl_one _ (by omega)]
        obtain ⟨ck, hck, hpar⟩ := Option.map_eq_some'.mp hsome
        rw [← hpar]
        dsimp only
        rw [hs2]
        exact (hshl.symm.trans heq).symm

/-- Witness for C4 at a concrete invalid input (`k = 0`). -/
theorem lottery_setup_validates_witness :
    lottery_setup (fun _ => none) (1 : ZMod 5) 1 1 0 1 0 = none :=
  (lottery_setup_validates (fun _ => none) 1 1 1 0 1 0 (by norm_num)).1
    (Or.inr (Or.inl (by
      rintro ⟨e2, he2⟩
      have hpos : 0 < 2 ^ e2 := pow_pos (by norm_num) e2
      omega)))

end Jackpot
